import Mathlib

/-!
Verification of the bit-store core of the `bitstring` repository.

This file gives a shallow embedding, in Lean 4, of the two source modules
`src/bitstring/bitstore.py` and `src/bitstring/bitstore_helpers.py`, of the
Python sequence-slicing semantics they rely on (`slice.indices` and
`list.__getitem__`), of the relevant parts of `bitarray` (`int2ba`, `hex2ba`,
`base2ba`, bitwise operators) and of CPython's `struct.pack` for the IEEE
binary float formats, together with the float8 reference implementation from
`src/tests/test_fp8.py`.  Machine bits are `Bool`, bit sequences are
`List Bool` in storage (MSB0) order, Python integers are `Int`/`Nat`, Python
floats are exact rationals extended with `nan`/`inf` markers, and fallible
operations return `Except Err`.  Error messages carry their numeric payloads
structurally (the constructors record exactly the numbers interpolated into
the corresponding Python message text).
-/

/-- Errors raised by the embedded code.  Each constructor corresponds to one
`raise` site (or one exception class raised by a library call); constructors
record the numbers that the Python error message interpolates. -/
inductive Err where
  /-- `IndexError` from `bitarray.__getitem__` / `__setitem__` with an
  out-of-range integer index. -/
  | indexError
  /-- `ValueError: slice step cannot be zero` from `slice.indices`. -/
  | zeroStep
  /-- `ValueError` from a bitwise operator applied to two bitarrays of
  different lengths. -/
  | lengthMismatch
  /-- `OverflowError` from `bitarray.util.int2ba` (value does not fit). -/
  | overflowError
  /-- `ValueError` from `bitarray.util.int2ba` when `length < 1`. -/
  | nonPositiveLength
  /-- `CreationError` "{i} is too large a signed integer for a bitstring of
  length {length}. The allowed range is [{lo}, {hi}]." -/
  | intRange (i : Int) (length : Nat) (lo hi : Int)
  /-- `CreationError` "{i} is too large an unsigned integer for a bitstring of
  length {length}. The allowed range is [{lo}, {hi}]." -/
  | uintRange (i : Int) (length : Nat) (lo hi : Int)
  /-- `CreationError` "uint cannot be initialised with a negative number."
  (this message interpolates no number, hence carries no bound). -/
  | uintNegative
  /-- `CreationError` "Cannot use negative initialiser for unsigned
  exponential-Golomb." -/
  | ueNegative
  /-- `CreationError` "Invalid character in bin initialiser {binstring}." -/
  | invalidBinChar
  /-- `CreationError` "Invalid symbol in hex initialiser." -/
  | invalidHexSymbol
  /-- `CreationError` "Invalid symbol in oct initialiser." -/
  | invalidOctSymbol
  /-- `CreationError` "Can't create bitstring with a length of {length} from
  {avail} bits of data." -/
  | creationLength (length avail : Nat)
  /-- `AssertionError` from `assert immutable is True` in `BitStore.__init__`. -/
  | assertFailed
deriving DecidableEq

/-- Bounds named by an error's message text: the Python f-string of the
message interpolates a closed interval `[lo, hi]` exactly for the two
"too large" creation errors. -/
def Err.namedBounds : Err → Option (Int × Int)
  | .intRange _ _ lo hi => some (lo, hi)
  | .uintRange _ _ lo hi => some (lo, hi)
  | _ => none

/-- Decidable equality for `Except` results (not provided by the core
library), needed to state and decide concrete evaluations. -/
instance {ε α : Type} [DecidableEq ε] [DecidableEq α] : DecidableEq (Except ε α) := fun a b =>
  match a, b with
  | .error e, .error f =>
    match decEq e f with
    | isTrue h => isTrue (h ▸ rfl)
    | isFalse h => isFalse fun hx => h (Except.error.inj hx)
  | .error _, .ok _ => isFalse fun hx => Except.noConfusion hx
  | .ok _, .error _ => isFalse fun hx => Except.noConfusion hx
  | .ok x, .ok y =>
    match decEq x y with
    | isTrue h => isTrue (h ▸ rfl)
    | isFalse h => isFalse fun hx => h (Except.ok.inj hx)

/-- A Python slice object `slice(start, stop, step)`; `none` is Python's
`None`. -/
structure PySlice where
  start : Option Int
  stop : Option Int
  step : Option Int
deriving DecidableEq

/-- `slice.indices(length)` as implemented by CPython
(`_PySlice_GetLongIndices`): defaults are filled in, negative indices are
shifted by `length`, and the results are clamped to `[0, length]` for a
positive step and to `[-1, length-1]` for a negative step.  A zero step
raises `ValueError`. -/
def PySlice.indices (s : PySlice) (length : Nat) : Except Err (Int × Int × Int) :=
  let step := s.step.getD 1
  if step = 0 then .error .zeroStep
  else
    let L : Int := length
    let lower : Int := if step < 0 then -1 else 0
    let upper : Int := if step < 0 then L - 1 else L
    let start := match s.start with
      | none => if step < 0 then upper else lower
      | some st => if st < 0 then max (st + L) lower else min st upper
    let stop := match s.stop with
      | none => if step < 0 then lower else upper
      | some sp => if sp < 0 then max (sp + L) lower else min sp upper
    .ok (start, stop, step)

/-- Number of indices selected by a normalized slice `(start, stop, step)`:
the length of the Python `range(start, stop, step)`. -/
def sliceCount (start stop step : Int) : Nat :=
  if 0 < step then
    if start < stop then ((stop - start - 1) / step + 1).toNat else 0
  else
    if stop < start then ((start - stop - 1) / (-step) + 1).toNat else 0

/-- The indices selected by a normalized slice, in selection order:
`start, start + step, ...` as produced by `range(start, stop, step)`. -/
def sliceIdx (start stop step : Int) : List Int :=
  (List.range (sliceCount start stop step)).map fun k => start + k * step

/-- `list.__getitem__` (and `bitarray.__getitem__`) with a slice key:
normalize the slice against the sequence's length, then pick the selected
elements. -/
def pyGetSlice (l : List Bool) (key : PySlice) : Except Err (List Bool) :=
  (key.indices l.length).map fun t =>
    (sliceIdx t.1 t.2.1 t.2.2).map fun i => l.getD i.toNat false

/-- `list.__getitem__` (and `bitarray.__getitem__`) with an integer key:
negative indices count from the end; out of range raises `IndexError`. -/
def pyGetIndex (l : List Bool) (i : Int) : Except Err Bool :=
  let j := if i < 0 then i + l.length else i
  if 0 ≤ j ∧ j < l.length then .ok (l.getD j.toNat false) else .error .indexError

/-- `bitarray.__setitem__` with an integer key. -/
def pySetIndex (l : List Bool) (i : Int) (v : Bool) : Except Err (List Bool) :=
  let j := if i < 0 then i + l.length else i
  if 0 ≤ j ∧ j < l.length then .ok (l.set j.toNat v) else .error .indexError

/-- `bitarray.__delitem__` with an integer key. -/
def pyDelIndex (l : List Bool) (i : Int) : Except Err (List Bool) :=
  let j := if i < 0 then i + l.length else i
  if 0 ≤ j ∧ j < l.length then .ok (l.eraseIdx j.toNat) else .error .indexError

/-- `offset_slice_indices_lsb0(key, length)` from `bitstore.py`: convert the
slice to concrete integers against `length`, then flip the coordinates; a
negative computed stop cannot be used in a new slice and becomes `None`. -/
def offset_slice_indices_lsb0 (key : PySlice) (length : Nat) : Except Err PySlice :=
  (key.indices length).map fun t =>
    let new_start : Int := length - t.2.1
    let new_stop : Int := length - t.1
    ⟨some new_start, if new_stop < 0 then none else some new_stop, some t.2.2⟩

/-- The `BitStore` object of `bitstore.py`: a wrapper around a `bitarray`
(the physical bit sequence, MSB0 order) together with the `immutable` and
`modified` flags, the optional logical `length` of a restricted view, and
the diagnostic `filename` (a character list; we never interpret it). -/
structure BitStore where
  bitarray : List Bool
  immutable : Bool
  modified : Bool
  length : Option Nat
  filename : List Char
deriving DecidableEq

/-- `BitStore(initializer)` with all keyword arguments defaulted: a plain
mutable store over a fresh copy of the given bits. -/
def BitStore.ofBitarray (l : List Bool) : BitStore :=
  ⟨l, false, false, none, []⟩

/-- `BitStore.__init__` for the general case: bits already assembled from
`initializer` / `buffer` / `frombytes`, plus the `immutable`, `length` and
`filename` arguments.  `modified` means the store is a restricted view; a
modified store asserts `immutable` and checks `length` against the available
bits.  (The Python negative-length check cannot fire here because lengths
are naturals.) -/
def BitStore.init (bits : List Bool) (immutable : Bool) (length : Option Nat)
    (filename : List Char) : Except Err BitStore :=
  let modified := length.isSome || filename ≠ []
  if modified then
    if !immutable then .error .assertFailed
    else
      let L := length.getD bits.length
      if bits.length < L then .error (.creationLength L bits.length)
      else .ok ⟨bits, immutable, true, some L, filename⟩
  else .ok ⟨bits, immutable, false, none, filename⟩

/-- `BitStore.__len__`: the logical length (the restricted view's `length`
when present, otherwise the physical bitarray length). -/
def BitStore.len (s : BitStore) : Nat :=
  s.length.getD s.bitarray.length

/-- `getindex_msb0(index)`: a plain read of the underlying bitarray. -/
def BitStore.getindex_msb0 (s : BitStore) (index : Int) : Except Err Bool :=
  pyGetIndex s.bitarray index

/-- `getindex_lsb0(index)`: reads the underlying bitarray at `-index - 1`. -/
def BitStore.getindex_lsb0 (s : BitStore) (index : Int) : Except Err Bool :=
  pyGetIndex s.bitarray (-index - 1)

/-- `getslice_msb0(key)`: a modified store first replaces the key by the
concrete triple `slice(*key.indices(len(self)))` computed against the
logical length; the (possibly replaced) key is then applied to the physical
bitarray, and the selected bits are wrapped in a fresh default-flag store. -/
def BitStore.getslice_msb0 (s : BitStore) (key : PySlice) : Except Err BitStore := do
  let key ←
    if s.modified then
      (key.indices s.len).map fun t =>
        (⟨some t.1, some t.2.1, some t.2.2⟩ : PySlice)
    else pure key
  let bits ← pyGetSlice s.bitarray key
  pure (BitStore.ofBitarray bits)

/-- `getslice_lsb0(key)`: translate the key by
`offset_slice_indices_lsb0(key, len(self))`, then slice the physical
bitarray with the translated key. -/
def BitStore.getslice_lsb0 (s : BitStore) (key : PySlice) : Except Err BitStore := do
  let k ← offset_slice_indices_lsb0 key s.len
  let bits ← pyGetSlice s.bitarray k
  pure (BitStore.ofBitarray bits)

/-- `setall(value)`: `bitarray.setall` sets every physical bit.  No check of
the `immutable` flag appears in the method body. -/
def BitStore.setall (s : BitStore) (value : Bool) : BitStore :=
  { s with bitarray := List.replicate s.bitarray.length value }

/-- `clear()`: `bitarray.clear` empties the physical bitarray.  No check of
the `immutable` flag appears in the method body. -/
def BitStore.clear (s : BitStore) : BitStore :=
  { s with bitarray := [] }

/-- `reverse()`: `bitarray.reverse` reverses the physical bitarray in place.
No check of the `immutable` flag appears in the method body. -/
def BitStore.reverse (s : BitStore) : BitStore :=
  { s with bitarray := s.bitarray.reverse }

/-- `invert_msb0()` with no index: `bitarray.invert` flips every physical
bit.  No check of the `immutable` flag appears in the method body. -/
def BitStore.invertAll (s : BitStore) : BitStore :=
  { s with bitarray := s.bitarray.map (fun b => !b) }

/-- `setitem_msb0(key, value)` for an integer key: a plain write into the
underlying bitarray.  No check of the `immutable` flag appears in the
method body. -/
def BitStore.setitem_msb0 (s : BitStore) (key : Int) (value : Bool) :
    Except Err BitStore :=
  (pySetIndex s.bitarray key value).map fun l => { s with bitarray := l }

/-- `delitem_msb0(key)` for an integer key: a plain delete from the
underlying bitarray.  No check of the `immutable` flag appears in the
method body. -/
def BitStore.delitem_msb0 (s : BitStore) (key : Int) : Except Err BitStore :=
  (pyDelIndex s.bitarray key).map fun l => { s with bitarray := l }

/-- `__iadd__(other)`: in-place concatenation of the physical bitarrays.
No check of the `immutable` flag appears in the method body. -/
def BitStore.iadd (s other : BitStore) : BitStore :=
  { s with bitarray := s.bitarray ++ other.bitarray }

/-- Bitwise combination of two raw bitarrays, as implemented by the
`bitarray` library: defined pointwise when the physical lengths agree and
raising `ValueError` otherwise. -/
def baCombine (f : Bool → Bool → Bool) (a b : List Bool) : Except Err (List Bool) :=
  if a.length = b.length then .ok (List.zipWith f a b) else .error .lengthMismatch

/-- `__and__(other)`: `BitStore(self._bitarray & other._bitarray)`. -/
def BitStore.opAnd (s other : BitStore) : Except Err BitStore :=
  (baCombine and s.bitarray other.bitarray).map BitStore.ofBitarray

/-- `__or__(other)`: `BitStore(self._bitarray | other._bitarray)`. -/
def BitStore.opOr (s other : BitStore) : Except Err BitStore :=
  (baCombine or s.bitarray other.bitarray).map BitStore.ofBitarray

/-- `__xor__(other)`: `BitStore(self._bitarray ^ other._bitarray)`. -/
def BitStore.opXor (s other : BitStore) : Except Err BitStore :=
  (baCombine xor s.bitarray other.bitarray).map BitStore.ofBitarray

/-- `__iand__(other)`: `self._bitarray &= other._bitarray`, keeping `self`'s
flags; on a length mismatch the operator raises before assigning, leaving
both operands unchanged.  No check of the `immutable` flag appears in the
method body. -/
def BitStore.iAnd (s other : BitStore) : Except Err BitStore :=
  (baCombine and s.bitarray other.bitarray).map fun l => { s with bitarray := l }

/-- `__ior__(other)`: `self._bitarray |= other._bitarray`. -/
def BitStore.iOr (s other : BitStore) : Except Err BitStore :=
  (baCombine or s.bitarray other.bitarray).map fun l => { s with bitarray := l }

/-- `__ixor__(other)`: `self._bitarray ^= other._bitarray`. -/
def BitStore.iXor (s other : BitStore) : Except Err BitStore :=
  (baCombine xor s.bitarray other.bitarray).map fun l => { s with bitarray := l }

/-- Big-endian fixed-width binary of a natural number: bit `k` of the output
is bit `length - 1 - k` of `n` (the pattern produced by
`bitarray.util.int2ba(..., endian='big')`). -/
def natToBitsBE (length n : Nat) : List Bool :=
  (List.range length).map fun k => n.testBit (length - 1 - k)

/-- `bitarray.util.int2ba(i, length, endian='big', signed)`: requires a
positive length; raises `OverflowError` when the value does not fit in
`length` bits (two's complement when signed, plain binary when unsigned);
otherwise returns the big-endian `length`-bit pattern of `i mod 2^length`. -/
def int2ba (i : Int) (length : Nat) (signed : Bool) : Except Err (List Bool) :=
  if length = 0 then .error .nonPositiveLength
  else if signed then
    if i < -(2 ^ (length - 1) : Int) ∨ (2 ^ (length - 1) : Int) ≤ i then
      .error .overflowError
    else .ok (natToBitsBE length (i % (2 ^ length : Int)).toNat)
  else
    if i < 0 ∨ (2 ^ length : Int) ≤ i then .error .overflowError
    else .ok (natToBitsBE length i.toNat)

/-- `int2bitstore(i, length, signed)` from `bitstore_helpers.py`: call
`int2ba` and translate its `OverflowError` into the matching
`CreationError` (re-raising the original error when none of the range
conditions explains it). -/
def int2bitstore (i : Int) (length : Nat) (signed : Bool) : Except Err BitStore :=
  match int2ba i length signed with
  | .ok ba => .ok (BitStore.ofBitarray ba)
  | .error e =>
    if e = .overflowError then
      if signed then
        if (2 ^ (length - 1) : Int) ≤ i ∨ i < -(2 ^ (length - 1) : Int) then
          .error (.intRange i length (-(2 ^ (length - 1) : Int)) ((2 ^ (length - 1) : Int) - 1))
        else .error e
      else
        if (2 ^ length : Int) ≤ i then
          .error (.uintRange i length 0 ((2 ^ length : Int) - 1))
        else if i < 0 then .error .uintNegative
        else .error e
    else .error e

/-- The `while tmp > 0: tmp >>= 1; leadingzeros += 1` loop of
`ue2bitstore`, counting how many halvings reach zero (the loop's final
`leadingzeros`, which started at `-1`, is `bitSteps tmp - 1`).  The loop
runs at most `tmp` times, so it is given `tmp` itself as structural fuel
(`bitStepsAux` is never called with less fuel than its argument). -/
def bitStepsAux : Nat → Nat → Nat
  | 0, _ => 0
  | fuel + 1, tmp => if tmp = 0 then 0 else bitStepsAux fuel (tmp / 2) + 1

/-- Number of halvings of `tmp` needed to reach zero. -/
def bitSteps (tmp : Nat) : Nat :=
  bitStepsAux tmp tmp

/-- `ue2bitstore(i)` from `bitstore_helpers.py`: unsigned exponential-Golomb
encoding.  Negative input raises a `CreationError`; zero returns the single
bit `1`; otherwise `leadingzeros` zero bits, a `1`, and the
`leadingzeros`-bit remainder `i + 1 - 2^leadingzeros` (the concatenation is
performed by `BitStore.__add__`, which joins the underlying bitarrays). -/
def ue2bitstore (i : Int) : Except Err BitStore :=
  if i < 0 then .error .ueNegative
  else if i = 0 then .ok (BitStore.ofBitarray [true])
  else
    let leadingzeros := bitSteps (i + 1).toNat - 1
    match int2bitstore (i + 1 - 2 ^ leadingzeros) leadingzeros false with
    | .ok rest =>
      .ok (BitStore.ofBitarray (List.replicate leadingzeros false ++ true :: rest.bitarray))
    | .error e => .error e

/-- Python `str.split()` whitespace (the ASCII part, which is all the
claims exercise), by code point: space (32), tab (9), newline (10),
carriage return (13), vertical tab (11), form feed (12). -/
def isPyWhitespace (c : Char) : Bool :=
  c.toNat = 32 || c.toNat = 9 || c.toNat = 10 || c.toNat = 13 || c.toNat = 11 || c.toNat = 12

/-- Python `str.lower()` restricted to ASCII (the claims only exercise
ASCII literals): maps `A`-`Z` (65-90) to `a`-`z` (97-122) and fixes
everything else. -/
def pyLower (c : Char) : Char :=
  if 65 ≤ c.toNat ∧ c.toNat ≤ 90 then Char.ofNat (c.toNat + 32) else c

/-- `tidy_input_string(s)` from `bitstore_helpers.py`:
`''.join(s.split())` removes all whitespace, then `.lower()`, then
`.replace('_', '')` removes underscores (code point 95). -/
def tidy_input_string (s : List Char) : List Char :=
  ((s.filter fun c => !isPyWhitespace c).map pyLower).filter fun c => c.toNat ≠ 95

/-- One-pass recursion equivalent to `tidy_input_string` (drop whitespace,
lowercase, drop underscores, character by character); used to organize the
inductive proofs about it. -/
def tidyScan : List Char → List Char
  | [] => []
  | c :: s =>
    if isPyWhitespace c then tidyScan s
    else if (pyLower c).toNat = 95 then tidyScan s
    else pyLower c :: tidyScan s

/-- Python `str.replace(pat, '')` for a two-character pattern (given by its
two code points): scans left to right, deleting non-overlapping
occurrences, without rescanning the output. -/
def dropMarker (p0 p1 : Nat) : List Char → List Char
  | [] => []
  | [c] => [c]
  | a :: b :: rest =>
    if a.toNat = p0 ∧ b.toNat = p1 then dropMarker p0 p1 rest
    else a :: dropMarker p0 p1 (b :: rest)

/-- Value of a hexadecimal digit character (`0`-`9`, `a`-`f`, `A`-`F` by
code point), for `bitarray.util.hex2ba` (which accepts both cases; here
the input has already been lowercased by `tidy_input_string`). -/
def hexDigitVal (c : Char) : Option Nat :=
  if 48 ≤ c.toNat ∧ c.toNat ≤ 57 then some (c.toNat - 48)
  else if 97 ≤ c.toNat ∧ c.toNat ≤ 102 then some (c.toNat - 97 + 10)
  else if 65 ≤ c.toNat ∧ c.toNat ≤ 70 then some (c.toNat - 65 + 10)
  else none

/-- Value of an octal digit character (`0`-`7`), for
`bitarray.util.base2ba(8, ...)`. -/
def octDigitVal (c : Char) : Option Nat :=
  if 48 ≤ c.toNat ∧ c.toNat ≤ 55 then some (c.toNat - 48) else none

/-- Value of a binary digit character (`0` or `1`), for `bitarray(str)`. -/
def binDigitVal (c : Char) : Option Nat :=
  if c.toNat = 48 then some 0 else if c.toNat = 49 then some 1 else none

/-- Map each character to `width` bits of its digit value; the first invalid
character raises `ValueError`.  This is the common shape of
`bitarray.util.hex2ba` (width 4), `bitarray.util.base2ba(8, ...)` (width 3)
and `bitarray(str)` (width 1). -/
def digitsToBits (digit : Char → Option Nat) (width : Nat) (e : Err) :
    List Char → Except Err (List Bool)
  | [] => .ok []
  | c :: rest =>
    match digit c with
    | none => .error e
    | some v =>
      (digitsToBits digit width e rest).map fun bs => natToBitsBE width v ++ bs

/-- `hex2bitstore(hexstring)` from `bitstore_helpers.py`: tidy the string,
delete every `0x` (code points 48, 120) occurrence (the string is lowercase by now, so this also
covers `0X`), then `hex2ba`; a `ValueError` becomes the `CreationError`
"Invalid symbol in hex initialiser.". -/
def hex2bitstore (hexstring : List Char) : Except Err BitStore :=
  let t := dropMarker 48 120 (tidy_input_string hexstring)
  (digitsToBits hexDigitVal 4 .invalidHexSymbol t).map BitStore.ofBitarray

/-- `bin2bitstore(binstring)` from `bitstore_helpers.py`: tidy the string,
delete every `0b` (code points 48, 98) occurrence, then construct from the digit characters; a
`ValueError` becomes the `CreationError` "Invalid character in bin
initialiser ...". -/
def bin2bitstore (binstring : List Char) : Except Err BitStore :=
  let t := dropMarker 48 98 (tidy_input_string binstring)
  (digitsToBits binDigitVal 1 .invalidBinChar t).map BitStore.ofBitarray

/-- `oct2bitstore(octstring)` from `bitstore_helpers.py`: tidy the string,
delete every `0o` (code points 48, 111) occurrence, then `base2ba(8, ...)`; a `ValueError`
becomes the `CreationError` "Invalid symbol in oct initialiser.". -/
def oct2bitstore (octstring : List Char) : Except Err BitStore :=
  let t := dropMarker 48 111 (tidy_input_string octstring)
  (digitsToBits octDigitVal 3 .invalidOctSymbol t).map BitStore.ofBitarray

/-- An exact dyadic rational `m * 2^e`: the value space of binary floating
point.  Every finite float the embedded code manipulates is of this form,
so representing Python floats this way loses nothing; all comparisons
below compare the exact values (representations need not be normalized:
`⟨2, 0⟩` and `⟨1, 1⟩` denote the same value and compare equal). -/
structure Dy where
  m : Int
  e : Int
deriving DecidableEq

/-- The exact rational value of a dyadic. -/
def Dy.toRat (x : Dy) : ℚ := (x.m : ℚ) * (2 : ℚ) ^ x.e

/-- Bring two dyadics to a common exponent (the smaller of the two) so
their scaled mantissas compare like their values. -/
def Dy.scaleTo (x : Dy) (g : Int) : Int := x.m * 2 ^ (x.e - g).toNat

/-- Exact value comparison of two dyadics, `<`. -/
def Dy.blt (x y : Dy) : Bool :=
  x.scaleTo (min x.e y.e) < y.scaleTo (min x.e y.e)

/-- Exact value comparison of two dyadics, `≤`. -/
def Dy.ble (x y : Dy) : Bool := !(Dy.blt y x)

/-- Negation of a dyadic. -/
def Dy.neg (x : Dy) : Dy := ⟨-x.m, x.e⟩

/-- Absolute value of a dyadic. -/
def dyAbs (x : Dy) : Dy := ⟨|x.m|, x.e⟩

/-- A Python float: either NaN, a signed infinity, or a finite value,
modelled as an exact dyadic rational.  (A negative zero is not
distinguished; no claim exercises it.) -/
inductive PyFloat where
  | nan : PyFloat
  | inf : PyFloat
  | ninf : PyFloat
  | val : Dy → PyFloat
deriving DecidableEq

/-- The finite float zero. -/
def pyZero : PyFloat := .val ⟨0, 0⟩

/-- Python `<` on floats: NaN compares false with everything, and the
infinities sit outside every finite value. -/
def PyFloat.lt : PyFloat → PyFloat → Bool
  | .nan, _ => false
  | _, .nan => false
  | .inf, _ => false
  | _, .inf => true
  | _, .ninf => false
  | .ninf, _ => true
  | .val a, .val b => Dy.blt a b

/-- Python `>` on floats. -/
def PyFloat.gt (a b : PyFloat) : Bool := PyFloat.lt b a

/-- Python `>=` on floats: NaN compares false with everything. -/
def PyFloat.ge : PyFloat → PyFloat → Bool
  | .nan, _ => false
  | _, .nan => false
  | a, b => !PyFloat.lt a b

/-- An IEEE-754 binary interchange format: exponent field width and
(explicit) mantissa field width. -/
structure IEEEFmt where
  eb : Nat
  mb : Nat
deriving DecidableEq

/-- Exponent bias `2^(eb-1) - 1`. -/
def IEEEFmt.bias (fmt : IEEEFmt) : Int := 2 ^ (fmt.eb - 1) - 1

/-- Largest unbiased exponent of a normal number. -/
def IEEEFmt.emax (fmt : IEEEFmt) : Int := fmt.bias

/-- Smallest unbiased exponent of a normal number. -/
def IEEEFmt.emin (fmt : IEEEFmt) : Int := 1 - fmt.bias

/-- IEEE binary16 (`struct` code `e`). -/
def fp16 : IEEEFmt := ⟨5, 10⟩

/-- IEEE binary32 (`struct` code `f`). -/
def fp32 : IEEEFmt := ⟨8, 23⟩

/-- IEEE binary64 (`struct` code `d`). -/
def fp64 : IEEEFmt := ⟨11, 52⟩

/-- Floor of the base-2 logarithm of a positive dyadic (`natSize` of the
mantissa, minus one, plus the exponent). -/
def dyLog2 (x : Dy) : Int := (bitSteps x.m.toNat : Int) - 1 + x.e

/-- Round a dyadic to an integer, ties to even (the IEEE default rounding
used by CPython's float packing).  For a negative exponent, `q` is the
floor and `r2 / 2^d` the fractional part times two. -/
def dyRndHalfEven (x : Dy) : Int :=
  if 0 ≤ x.e then x.m * 2 ^ x.e.toNat
  else
    let d := (-x.e).toNat
    let q := Int.fdiv x.m (2 ^ d)
    let r2 := 2 * (x.m - q * 2 ^ d)
    if r2 < 2 ^ d then q
    else if 2 ^ d < r2 then q + 1
    else if q % 2 = 0 then q else q + 1

/-- Encode a positive magnitude into (exponent field, mantissa field) by
round-to-nearest-even, as CPython's `_PyFloat_Pack2` (and the C
double-to-float conversion used for codes `f`/`d`) does; an error is the
`OverflowError` raised when the rounded value exceeds the largest finite
number of the format. -/
def encodePos (fmt : IEEEFmt) (x : Dy) : Except Unit (Nat × Nat) :=
  let e0 : Int := max (dyLog2 x) fmt.emin
  let n : Int := dyRndHalfEven ⟨x.m, x.e - (e0 - fmt.mb)⟩
  let en : Int × Int :=
    if n = 2 ^ (fmt.mb + 1) then (e0 + 1, 2 ^ fmt.mb) else (e0, n)
  if fmt.emax < en.1 then .error ()
  else if en.2 < 2 ^ fmt.mb then .ok (0, en.2.toNat)
  else .ok ((en.1 + fmt.bias).toNat, (en.2 - 2 ^ fmt.mb).toNat)

/-- Assemble the big-endian bit pattern `sign :: exponent ++ mantissa`. -/
def fieldsToBits (fmt : IEEEFmt) (sign : Bool) (ef mf : Nat) : List Bool :=
  sign :: (natToBitsBE fmt.eb ef ++ natToBitsBE fmt.mb mf)

/-- Big-endian `struct.pack` of one float in the given format.  NaN packs
as the quiet NaN pattern CPython emits for `float('nan')`; a finite value
whose rounded magnitude exceeds the format's largest finite number raises
`OverflowError`. -/
def packBE (fmt : IEEEFmt) (f : PyFloat) : Except Err (List Bool) :=
  match f with
  | .nan => .ok (fieldsToBits fmt false (2 ^ fmt.eb - 1) (2 ^ (fmt.mb - 1)))
  | .inf => .ok (fieldsToBits fmt false (2 ^ fmt.eb - 1) 0)
  | .ninf => .ok (fieldsToBits fmt true (2 ^ fmt.eb - 1) 0)
  | .val x =>
    if x.m = 0 then .ok (fieldsToBits fmt false 0 0)
    else
      match encodePos fmt (dyAbs x) with
      | .error _ => .error .overflowError
      | .ok (ef, mf) => .ok (fieldsToBits fmt (decide (x.m < 0)) ef mf)

/-- Split a bit list into bytes (groups of eight bits, accumulating the
current byte in reverse). -/
def chunkBytesAux : List Bool → List Bool → List (List Bool)
  | acc, [] => if acc.isEmpty then [] else [acc.reverse]
  | acc, b :: rest =>
    if acc.length = 7 then (b :: acc).reverse :: chunkBytesAux [] rest
    else chunkBytesAux (b :: acc) rest

/-- Split a bit list into bytes (groups of eight bits). -/
def toByteChunks (l : List Bool) : List (List Bool) :=
  chunkBytesAux [] l

/-- Reverse the byte order of a bit pattern (little-endian `struct.pack`). -/
def byteSwap (l : List Bool) : List Bool :=
  ((toByteChunks l).reverse).flatten

/-- `struct.pack(fmt, f)` for a float format with chosen byte order,
returning the packed bits in storage order. -/
def structPack (fmt : IEEEFmt) (big_endian : Bool) (f : PyFloat) :
    Except Err (List Bool) :=
  (packBE fmt f).map fun b => if big_endian then b else byteSwap b

/-- The `try: struct.pack(...) except OverflowError:` pattern shared by
`float2bitstore` and `bfloat2bitstore`: on overflow, pack
`float('inf')` when `f > 0` and `float('-inf')` otherwise (packing an
infinity cannot fail, so the unreachable inner error branch returns an
empty pattern). -/
def structPackCatch (fmt : IEEEFmt) (big_endian : Bool) (f : PyFloat) : List Bool :=
  match structPack fmt big_endian f with
  | .ok b => b
  | .error _ =>
    match structPack fmt big_endian (if PyFloat.gt f pyZero then .inf else .ninf) with
    | .ok b => b
    | .error _ => []

/-- The widths accepted by `float2bitstore`'s format dictionary
`{16: 'e', 32: 'f', 64: 'd'}`. -/
inductive FW where
  | w16 : FW
  | w32 : FW
  | w64 : FW
deriving DecidableEq

/-- Format selected by each width key. -/
def FW.fmt : FW → IEEEFmt
  | .w16 => fp16
  | .w32 => fp32
  | .w64 => fp64

/-- `float2bitstore(f, length, big_endian)` from `bitstore_helpers.py`:
pack with the chosen width and byte order, substituting a signed infinity
on `OverflowError`, and wrap the bytes in a fresh store. -/
def float2bitstore (f : PyFloat) (w : FW) (big_endian : Bool) : BitStore :=
  BitStore.ofBitarray (structPackCatch w.fmt big_endian f)

/-- `bfloat2bitstore(f, big_endian)` from `bitstore_helpers.py`: pack as a
32-bit float (with the same `OverflowError` handling), then keep bytes
`[0:2]` of the big-endian packing or `[2:4]` of the little-endian one. -/
def bfloat2bitstore (f : PyFloat) (big_endian : Bool) : BitStore :=
  let b := structPackCatch fp32 big_endian f
  BitStore.ofBitarray (if big_endian then b.take 16 else (b.drop 16).take 16)

/-- Largest finite magnitude of a format: `(2^(mb+1) - 1) * 2^(emax - mb)`. -/
def maxFinite (fmt : IEEEFmt) : Dy := ⟨2 ^ (fmt.mb + 1) - 1, fmt.emax - fmt.mb⟩

/-- Smallest magnitude that round-to-nearest-even carries to infinity:
half an ulp above `maxFinite`, i.e. `(2^(mb+1) - 1/2) * 2^(emax - mb)`,
written with mantissa `2^(mb+2) - 1` at exponent `emax - mb - 1`. -/
def overflowBound (fmt : IEEEFmt) : Dy := ⟨2 ^ (fmt.mb + 2) - 1, fmt.emax - fmt.mb - 1⟩

/-- The lookup-table builder `createLUT_for_int8_to_float(exp_bits, bias)`
from `src/tests/test_fp8.py`, as a function from the 8-bit code to the
decoded float: the top bit is the sign, the next `exp_bits` bits the
exponent field, the rest the significand field; an exponent field of zero
marks a subnormal (implicit leading significand bit 0 and exponent
`1 - bias`), any other value a normal; code `0b10000000` is the single NaN
(the table entry is overwritten after the loop).  The float
`significand / 2^(7 - exp_bits) * 2^exponent` is the dyadic
`significand * 2^(exponent - (7 - exp_bits))`. -/
def lutInt8ToFloat (exp_bits : Nat) (bias : Int) (i : Nat) : PyFloat :=
  if i = 128 then .nan
  else
    let sign := i / 128
    let expField : Int := ((i / 2 ^ (7 - exp_bits)) % 2 ^ exp_bits : Nat)
    let sigField : Nat := i % 2 ^ (7 - exp_bits)
    let sig : Nat := if expField = 0 then sigField else sigField + 2 ^ (7 - exp_bits)
    let exponent : Int := if expField = 0 then -bias + 1 else expField - bias
    let f : Dy := ⟨(sig : Int), exponent - ((7 : Int) - exp_bits)⟩
    .val (if sign = 0 then f else f.neg)

/-- `slow_float_to_int8(lut, f)` from `src/tests/test_fp8.py`: the
reference encoder.  For `f >= 0`, scan codes `0..127` for the first table
value exceeding `f` and return the previous code, clipping to `0b01111111`;
for `f < 0`, first send values above the least-magnitude negative entry to
the all-zero code (there is no negative zero), then scan codes `130..255`
symmetrically, clipping to `0b11111111`; anything else (the NaN) maps to
`0b10000000`. -/
def slow_float_to_int8 (lut : Nat → PyFloat) (f : PyFloat) : Int :=
  if PyFloat.ge f pyZero then
    match (List.range 128).find? (fun i => PyFloat.lt f (lut i)) with
    | some i => (i : Int) - 1
    | none => 0b01111111
  else if PyFloat.lt f pyZero then
    if PyFloat.gt f (lut 129) then 0
    else
      match (List.range' 130 126).find? (fun i => PyFloat.gt f (lut i)) with
      | some i => (i : Int) - 1
      | none => 0b11111111
  else 0b10000000

/-- Monad plumbing for `Except`: binding after a `map` composes the
functions. -/
theorem except_map_bind {ε α β γ : Type} (x : Except ε α) (f : α → β) (g : β → Except ε γ) :
    (x.map f >>= g) = x >>= fun a => g (f a) := by
  cases x <;> rfl

/-- Monad plumbing for `Except`: binding into `pure` is a `map`. -/
theorem except_bind_pure {ε α β : Type} (x : Except ε α) (f : α → β) :
    (x >>= fun a => (pure (f a) : Except ε β)) = x.map f := by
  cases x <;> rfl

/-- C2.  For every store of logical length `L` and every LSB0 slice first
normalized against `L` by ordinary range semantics (`slice.indices`,
giving the triple `t = (start, stop, step)`), the coordinate translation
yields the MSB0 slice `(L - stop, L - start, step)` with the translated
stop replaced by "unbounded" (`None`) whenever it is negative, and
`getslice_lsb0` returns exactly the bits selected from the backing
bitarray by this translated MSB0 slice — including when the step is
negative (a zero step propagates the same `ValueError` on both sides). -/
theorem c2_lsb0_slice_is_translated_msb0_slice (s : BitStore) (key : PySlice) :
    s.getslice_lsb0 key =
      key.indices s.len >>= fun t =>
        (pyGetSlice s.bitarray
          ⟨some ((s.len : Int) - t.2.1),
           if ((s.len : Int) - t.1) < 0 then none else some ((s.len : Int) - t.1),
           some t.2.2⟩).map BitStore.ofBitarray := by
  unfold BitStore.getslice_lsb0 offset_slice_indices_lsb0
  rw [except_map_bind]
  simp only [except_bind_pure]

/-- C3 (amended).  `BitStore` performs no immutability check of its own:
every mutating operation modelled from `bitstore.py` (`setall`, `clear`,
`reverse`, full `invert`, in-place concatenation, in-place AND,
single-bit `setitem_msb0` and `delitem_msb0`) executes and mutates the
store even when its `immutable` flag is true; none of their method bodies
can produce an immutable/fixed error. -/
theorem c3_mutating_ops_ignore_immutable_flag (s other : BitStore) (v : Bool)
    (h : s.immutable = true) :
    s.setall v = { s with bitarray := List.replicate s.bitarray.length v } ∧
    s.clear = { s with bitarray := [] } ∧
    s.reverse = { s with bitarray := s.bitarray.reverse } ∧
    s.invertAll = { s with bitarray := s.bitarray.map fun b => !b } ∧
    s.iadd other = { s with bitarray := s.bitarray ++ other.bitarray } ∧
    (s.bitarray.length = other.bitarray.length →
      s.iAnd other =
        .ok { s with bitarray := List.zipWith and s.bitarray other.bitarray }) ∧
    (∀ k : Nat, k < s.bitarray.length →
      s.setitem_msb0 k v = .ok { s with bitarray := s.bitarray.set k v }) ∧
    (∀ k : Nat, k < s.bitarray.length →
      s.delitem_msb0 k = .ok { s with bitarray := s.bitarray.eraseIdx k }) := by
  refine ⟨rfl, rfl, rfl, rfl, rfl, ?_, ?_, ?_⟩
  · intro hlen
    simp [BitStore.iAnd, baCombine, hlen, Except.map]
  · intro k hk
    simp only [BitStore.setitem_msb0, pySetIndex]
    have h0 : ¬((k : Int) < 0) := by omega
    rw [if_neg h0]
    have hin : (0 : Int) ≤ (k : Int) ∧ (k : Int) < s.bitarray.length := by
      constructor <;> omega
    rw [if_pos hin]
    simp [Except.map]
  · intro k hk
    simp only [BitStore.delitem_msb0, pyDelIndex]
    have h0 : ¬((k : Int) < 0) := by omega
    rw [if_neg h0]
    have hin : (0 : Int) ≤ (k : Int) ∧ (k : Int) < s.bitarray.length := by
      constructor <;> omega
    rw [if_pos hin]
    simp [Except.map]

/-- C3 witness: the amended theorem applied to a concrete immutable store
(`setall` conjunct, concrete evaluation of both sides). -/
theorem c3_mutating_ops_ignore_immutable_flag_witness :
    (⟨[false, false], true, false, none, []⟩ : BitStore).setall true =
      { (⟨[false, false], true, false, none, []⟩ : BitStore) with
        bitarray := List.replicate
          (⟨[false, false], true, false, none, []⟩ : BitStore).bitarray.length true } :=
  (c3_mutating_ops_ignore_immutable_flag
    ⟨[false, false], true, false, none, []⟩ (BitStore.ofBitarray []) true rfl).1

/-- C3 counterexample.  The claim says a mutating operation on an immutable
store raises an immutable/fixed error and leaves the store unchanged; on
the code, `setall` on an immutable store raises nothing (its type here is
total because `bitarray.setall` cannot fail) and returns a changed store. -/
theorem c3_immutable_store_is_mutated_counterexample :
    (⟨[false], true, false, none, []⟩ : BitStore).immutable = true ∧
    (⟨[false], true, false, none, []⟩ : BitStore).setall true =
      ⟨[true], true, false, none, []⟩ ∧
    (⟨[true], true, false, none, []⟩ : BitStore) ≠
      ⟨[false], true, false, none, []⟩ := by
  refine ⟨rfl, rfl, by decide⟩

/-- C9 (amended).  The bitwise combinations AND, OR, XOR — both the
new-store and the in-place forms — succeed exactly when the two operands'
underlying physical bitarrays have equal length, and otherwise raise the
length-mismatch error without producing any mutated store; for a store
that is not a restricted view (its `length` attribute is `None`) the
physical length coincides with the store's logical length `len`. -/
theorem c9_bitwise_ops_check_physical_length (a b : BitStore) :
    (a.opAnd b = if a.bitarray.length = b.bitarray.length
      then .ok (BitStore.ofBitarray (List.zipWith and a.bitarray b.bitarray))
      else .error .lengthMismatch) ∧
    (a.opOr b = if a.bitarray.length = b.bitarray.length
      then .ok (BitStore.ofBitarray (List.zipWith or a.bitarray b.bitarray))
      else .error .lengthMismatch) ∧
    (a.opXor b = if a.bitarray.length = b.bitarray.length
      then .ok (BitStore.ofBitarray (List.zipWith xor a.bitarray b.bitarray))
      else .error .lengthMismatch) ∧
    (a.iAnd b = if a.bitarray.length = b.bitarray.length
      then .ok { a with bitarray := List.zipWith and a.bitarray b.bitarray }
      else .error .lengthMismatch) ∧
    (a.iOr b = if a.bitarray.length = b.bitarray.length
      then .ok { a with bitarray := List.zipWith or a.bitarray b.bitarray }
      else .error .lengthMismatch) ∧
    (a.iXor b = if a.bitarray.length = b.bitarray.length
      then .ok { a with bitarray := List.zipWith xor a.bitarray b.bitarray }
      else .error .lengthMismatch) ∧
    (a.length = none → a.len = a.bitarray.length) := by
  refine ⟨?_, ?_, ?_, ?_, ?_, ?_, fun h => by simp [BitStore.len, h]⟩
  all_goals
    simp only [BitStore.opAnd, BitStore.opOr, BitStore.opXor, BitStore.iAnd, BitStore.iOr,
      BitStore.iXor, baCombine]
  all_goals split
  all_goals simp [Except.map]

/-- C9 witness: the amended theorem applied at concrete stores, using the
last conjunct's hypothesis at a concrete non-view store. -/
theorem c9_bitwise_ops_check_physical_length_witness :
    (BitStore.ofBitarray [true]).len = (BitStore.ofBitarray [true]).bitarray.length :=
  (c9_bitwise_ops_check_physical_length (BitStore.ofBitarray [true])
    (BitStore.ofBitarray [true, false])).2.2.2.2.2.2 rfl

/-- C9 counterexample.  The claim quantifies over every pair of stores and
ties success to equal store length (`__len__`, the logical length).  A
restricted view refutes both directions: `a` is a legitimately constructed
view of logical length 1 over 2 physical bits.  Against `b` of length 2
(unequal logical lengths) AND succeeds instead of raising; against `c` of
length 1 (equal logical lengths) AND raises the length-mismatch error. -/
theorem c9_view_refutes_logical_length_counterexample :
    BitStore.init [true, true] true (some 1) [] =
      .ok ⟨[true, true], true, true, some 1, []⟩ ∧
    (⟨[true, true], true, true, some 1, []⟩ : BitStore).len = 1 ∧
    (BitStore.ofBitarray [true, false]).len = 2 ∧
    (⟨[true, true], true, true, some 1, []⟩ : BitStore).opAnd
        (BitStore.ofBitarray [true, false]) =
      .ok (BitStore.ofBitarray [true, false]) ∧
    (BitStore.ofBitarray [true]).len = 1 ∧
    (⟨[true, true], true, true, some 1, []⟩ : BitStore).opAnd
        (BitStore.ofBitarray [true]) =
      .error .lengthMismatch := by
  refine ⟨rfl, rfl, rfl, rfl, rfl, rfl⟩

/-- C1 (amended).  Reading a single bit in LSB0 convention mirrors the
MSB0 convention, `getindex_lsb0 j = getindex_msb0 (L - 1 - j)` for every
valid `j`, for every store whose logical length equals the length of its
physical backing bitarray — in particular for every store that is not a
restricted view.  (For a view that is shorter than its backing data the
identity fails, because `getindex_lsb0` counts from the physical end.) -/
theorem c1_lsb0_index_mirrors_msb0 (s : BitStore) (j : Nat)
    (hfull : s.len = s.bitarray.length) (hj : j < s.len) :
    s.getindex_lsb0 j = s.getindex_msb0 ((s.len : Int) - 1 - j) := by
  simp only [BitStore.getindex_lsb0, BitStore.getindex_msb0, pyGetIndex]
  rw [hfull] at hj ⊢
  have h1 : (-(j : Int) - 1 < 0) := by omega
  have h2 : ¬((s.bitarray.length : Int) - 1 - j < 0) := by omega
  rw [if_pos h1, if_neg h2]
  have h3 : (0 : Int) ≤ -(j : Int) - 1 + s.bitarray.length ∧
      -(j : Int) - 1 + s.bitarray.length < s.bitarray.length := by
    constructor <;> omega
  have h4 : (0 : Int) ≤ (s.bitarray.length : Int) - 1 - j ∧
      (s.bitarray.length : Int) - 1 - j < s.bitarray.length := by
    constructor <;> omega
  rw [if_pos h3, if_pos h4]
  have he : (-(j : Int) - 1 + s.bitarray.length).toNat =
      ((s.bitarray.length : Int) - 1 - j).toNat := by omega
  rw [he]

/-- C1 witness: the amended theorem applied to the concrete two-bit
non-view store at index 0, hypotheses discharged by `rfl`/`decide`. -/
theorem c1_lsb0_index_mirrors_msb0_witness :
    (BitStore.ofBitarray [true, false]).getindex_lsb0 0 =
      (BitStore.ofBitarray [true, false]).getindex_msb0
        (((BitStore.ofBitarray [true, false]).len : Int) - 1 - (0 : Nat)) :=
  c1_lsb0_index_mirrors_msb0 (BitStore.ofBitarray [true, false]) 0 rfl (by decide)

/-- C1 counterexample.  The claim asserts the mirror identity also for
restricted views whose logical length is shorter than the physical backing
data.  A legitimately constructed view of logical length 1 over the
backing bits `[1, 0]` refutes it: at the only valid index 0, the LSB0 read
returns the last physical bit 0, while the mirrored MSB0 read
`L - 1 - 0 = 0` returns 1. -/
theorem c1_view_breaks_mirror_counterexample :
    BitStore.init [true, false] true (some 1) [] =
      .ok ⟨[true, false], true, true, some 1, []⟩ ∧
    (⟨[true, false], true, true, some 1, []⟩ : BitStore).len = 1 ∧
    (⟨[true, false], true, true, some 1, []⟩ : BitStore).getindex_lsb0 0 =
      .ok false ∧
    (⟨[true, false], true, true, some 1, []⟩ : BitStore).getindex_msb0
        ((1 : Int) - 1 - (0 : Nat)) = .ok true ∧
    (Except.ok false : Except Err Bool) ≠ .ok true := by
  refine ⟨rfl, rfl, rfl, rfl, fun h => absurd (Except.ok.inj h) (by decide)⟩

/-- Running the halving loop on zero gives zero, whatever the fuel. -/
theorem bitStepsAux_zero (fuel : Nat) : bitStepsAux fuel 0 = 0 := by
  cases fuel <;> rfl

/-- With enough fuel, the halving count of a nonzero number is positive and
pins the number between consecutive powers of two. -/
theorem bitStepsAux_bounds :
    ∀ fuel n : Nat, n ≠ 0 → n ≤ fuel →
      1 ≤ bitStepsAux fuel n ∧ 2 ^ (bitStepsAux fuel n - 1) ≤ n ∧
        n < 2 ^ bitStepsAux fuel n := by
  intro fuel
  induction fuel with
  | zero => intro n h hle; omega
  | succ f ih =>
    intro n h hle
    simp only [bitStepsAux, if_neg h]
    by_cases h2 : n / 2 = 0
    · have h1 : n = 1 := by omega
      subst h1
      rw [show (1 : Nat) / 2 = 0 from rfl, bitStepsAux_zero]
      norm_num
    · have hf : n / 2 ≤ f := by omega
      obtain ⟨hpos, hlo, hhi⟩ := ih (n / 2) h2 hf
      refine ⟨by omega, ?_, ?_⟩
      · have hrw : bitStepsAux f (n / 2) + 1 - 1 = (bitStepsAux f (n / 2) - 1) + 1 := by
          omega
        rw [hrw, pow_succ]
        omega
      · rw [pow_succ]
        omega

/-- The loop value `leadingzeros = bitSteps n - 1` equals the claim's
`floor(log2 n)` for nonzero `n`. -/
theorem bitSteps_sub_one_eq_log (n : Nat) (h : n ≠ 0) :
    bitSteps n - 1 = Nat.log 2 n := by
  obtain ⟨hpos, hlo, hhi⟩ := bitStepsAux_bounds n n h le_rfl
  have hb : bitSteps n = bitStepsAux n n := rfl
  rw [hb]
  have h1 : n < 2 ^ (bitStepsAux n n - 1 + 1) := by
    rw [show bitStepsAux n n - 1 + 1 = bitStepsAux n n from by omega]
    exact hhi
  exact (Nat.log_eq_of_pow_le_of_lt_pow hlo h1).symm

/-- `int2bitstore` on an in-range unsigned value returns the big-endian
binary pattern. -/
theorem int2bitstore_unsigned_ok (i : Int) (L : Nat) (hL : L ≠ 0) (h0 : 0 ≤ i)
    (hlt : i < 2 ^ L) :
    int2bitstore i L false = .ok (BitStore.ofBitarray (natToBitsBE L i.toNat)) := by
  have hc : ¬(i < 0 ∨ (2 ^ L : Int) ≤ i) := by
    push_neg
    exact ⟨h0, hlt⟩
  simp only [int2bitstore, int2ba, if_neg hL, Bool.false_eq_true, if_false, if_neg hc]

/-- `int2bitstore` on an in-range signed value returns the big-endian
two's-complement pattern. -/
theorem int2bitstore_signed_ok (i : Int) (L : Nat) (hL : L ≠ 0)
    (hlo : -(2 ^ (L - 1) : Int) ≤ i) (hhi : i < 2 ^ (L - 1)) :
    int2bitstore i L true =
      .ok (BitStore.ofBitarray (natToBitsBE L (i % (2 ^ L : Int)).toNat)) := by
  have hc : ¬(i < -(2 ^ (L - 1) : Int) ∨ (2 ^ (L - 1) : Int) ≤ i) := by
    push_neg
    exact ⟨hlo, hhi⟩
  simp only [int2bitstore, int2ba, if_neg hL, if_true, if_neg hc]

/-- `int2bitstore` on an out-of-range signed value raises the signed range
`CreationError`. -/
theorem int2bitstore_signed_err (i : Int) (L : Nat) (hL : L ≠ 0)
    (h : i < -(2 ^ (L - 1) : Int) ∨ (2 ^ (L - 1) : Int) ≤ i) :
    int2bitstore i L true =
      .error (.intRange i L (-(2 ^ (L - 1) : Int)) ((2 ^ (L - 1) : Int) - 1)) := by
  have h' : (2 ^ (L - 1) : Int) ≤ i ∨ i < -(2 ^ (L - 1) : Int) := h.symm
  simp only [int2bitstore, int2ba, if_neg hL, if_true, if_pos h, if_pos h']

/-- `int2bitstore` on a too-large unsigned value raises the unsigned range
`CreationError` naming the bounds `[0, 2^L - 1]`. -/
theorem int2bitstore_unsigned_err_high (i : Int) (L : Nat) (hL : L ≠ 0)
    (h : (2 ^ L : Int) ≤ i) :
    int2bitstore i L false =
      .error (.uintRange i L 0 ((2 ^ L : Int) - 1)) := by
  have hc : i < 0 ∨ (2 ^ L : Int) ≤ i := Or.inr h
  simp only [int2bitstore, int2ba, if_neg hL, Bool.false_eq_true, if_false, if_pos hc,
    if_pos h]
  rfl

/-- `int2bitstore` on a negative unsigned value raises the boundless
"negative number" `CreationError`. -/
theorem int2bitstore_unsigned_err_neg (i : Int) (L : Nat) (hL : L ≠ 0)
    (h : i < 0) :
    int2bitstore i L false = .error .uintNegative := by
  have hc : i < 0 ∨ (2 ^ L : Int) ≤ i := Or.inl h
  have hh : ¬((2 ^ L : Int) ≤ i) := by
    have : (0 : Int) < 2 ^ L := by positivity
    omega
  simp only [int2bitstore, int2ba, if_neg hL, Bool.false_eq_true, if_false, if_pos hc,
    if_neg hh, if_pos h]
  rfl

/-- `ue2bitstore` on a non-negative integer produces `leadingZeros` zero
bits, a one bit, then the `leadingZeros`-bit remainder, with
`leadingZeros = floor(log2(i+1))` and `remainder = i + 1 - 2^leadingZeros`. -/
theorem ue2bitstore_nonneg (i : Int) (h : 0 ≤ i) :
    ue2bitstore i = .ok (BitStore.ofBitarray
      (List.replicate (Nat.log 2 (i.toNat + 1)) false ++ true ::
        natToBitsBE (Nat.log 2 (i.toNat + 1))
          (i.toNat + 1 - 2 ^ Nat.log 2 (i.toNat + 1)))) := by
  by_cases h0 : i = 0
  · subst h0
    have hlog : Nat.log 2 ((0 : Int).toNat + 1) = 0 := by
      norm_num
    rw [hlog]
    rfl
  · have h1 : ¬(i < 0) := by omega
    have h2 : (1 : Int) ≤ i := by omega
    simp only [ue2bitstore, if_neg h1, if_neg h0]
    have htn : ((i + 1).toNat) = i.toNat + 1 := by omega
    rw [htn]
    set n := i.toNat + 1 with hn
    have hnne : n ≠ 0 := by omega
    have hlz : bitSteps n - 1 = Nat.log 2 n := bitSteps_sub_one_eq_log n hnne
    rw [hlz]
    have hlo : 2 ^ Nat.log 2 n ≤ n := Nat.pow_log_le_self 2 hnne
    have hhi : n < 2 ^ (Nat.log 2 n + 1) := Nat.lt_pow_succ_log_self (by norm_num) n
    have hLne : Nat.log 2 n ≠ 0 := by
      intro hz
      rw [hz] at hhi
      norm_num at hhi
      omega
    have hcast : ((n : Int)) = i + 1 := by omega
    have hpow : ((2 ^ Nat.log 2 n : Nat) : Int) = (2 : Int) ^ Nat.log 2 n := by
      push_cast
      rfl
    have hrem0 : 0 ≤ i + 1 - 2 ^ Nat.log 2 n := by
      have : ((2 ^ Nat.log 2 n : Nat) : Int) ≤ (n : Int) := by exact_mod_cast hlo
      rw [hpow] at this
      omega
    have hremlt : i + 1 - 2 ^ Nat.log 2 n < 2 ^ Nat.log 2 n := by
      have : (n : Int) < ((2 ^ (Nat.log 2 n + 1) : Nat) : Int) := by exact_mod_cast hhi
      rw [pow_succ] at this
      push_cast at this
      omega
    rw [int2bitstore_unsigned_ok _ _ hLne hrem0 hremlt]
    have htn2 : (i + 1 - 2 ^ Nat.log 2 n).toNat = n - 2 ^ Nat.log 2 n := by
      have : ((2 ^ Nat.log 2 n : Nat) : Int) ≤ (n : Int) := by exact_mod_cast hlo
      rw [hpow] at this
      omega
    rw [htn2]
    rfl

/-- C4.  The unsigned exponential-Golomb encoder emits, for `i ≥ 0`,
exactly `leadingZeros` zero bits, one `1` bit, then the
`leadingZeros`-bit big-endian binary of `remainder`, where
`leadingZeros = floor(log2(i+1))` and
`remainder = i + 1 - 2^leadingZeros`; in particular `ue(0)` is the single
bit `1` and `ue(5)` is `00110`; for `i < 0` it raises the domain
(creation) error. -/
theorem c4_ue_golomb_encoding (i : Int) :
    (i < 0 → ue2bitstore i = .error .ueNegative) ∧
    (0 ≤ i → ue2bitstore i = .ok (BitStore.ofBitarray
      (List.replicate (Nat.log 2 (i.toNat + 1)) false ++ true ::
        natToBitsBE (Nat.log 2 (i.toNat + 1))
          (i.toNat + 1 - 2 ^ Nat.log 2 (i.toNat + 1))))) ∧
    ue2bitstore 0 = .ok (BitStore.ofBitarray [true]) ∧
    ue2bitstore 5 = .ok (BitStore.ofBitarray [false, false, true, true, false]) := by
  refine ⟨fun h => ?_, fun h => ue2bitstore_nonneg i h, rfl, ?_⟩
  · simp only [ue2bitstore, if_pos h]
  · rw [ue2bitstore_nonneg 5 (by norm_num)]
    have h6 : ((5 : Int).toNat + 1) = 6 := rfl
    rw [h6]
    have hlog : Nat.log 2 6 = 2 :=
      Nat.log_eq_of_pow_le_of_lt_pow (by norm_num) (by norm_num)
    rw [hlog]
    rfl

/-- C4 witness: the theorem applied at `i = 5` (and its error branch at
`i = -1`), hypotheses discharged concretely. -/
theorem c4_ue_golomb_encoding_witness :
    ue2bitstore (-1) = .error .ueNegative ∧
    ue2bitstore 5 = .ok (BitStore.ofBitarray
      (List.replicate (Nat.log 2 ((5 : Int).toNat + 1)) false ++ true ::
        natToBitsBE (Nat.log 2 ((5 : Int).toNat + 1))
          ((5 : Int).toNat + 1 - 2 ^ Nat.log 2 ((5 : Int).toNat + 1)))) :=
  ⟨(c4_ue_golomb_encoding (-1)).1 (by norm_num),
   (c4_ue_golomb_encoding 5).2.1 (by norm_num)⟩

/-- C5 (amended).  For width `L > 0` fixed-width integer encoding raises a
range `CreationError` exactly when the value lies outside the
representable span (`[0, 2^L - 1]` unsigned, `[-2^(L-1), 2^(L-1) - 1]`
signed), returning the `L`-bit big-endian two's-complement/binary pattern
otherwise; the too-large errors carry messages naming the offending
bounds, while a negative unsigned value is rejected with a message naming
no bound; `encode(255, 8, unsigned)` gives `11111111` and
`encode(256, 8, unsigned)` raises the range error. -/
theorem c5_fixed_width_int_encode (i : Int) (L : Nat) (hL : 0 < L) :
    ((-(2 ^ (L - 1) : Int) ≤ i ∧ i < 2 ^ (L - 1)) →
      int2bitstore i L true =
        .ok (BitStore.ofBitarray (natToBitsBE L (i % (2 ^ L : Int)).toNat))) ∧
    ((i < -(2 ^ (L - 1) : Int) ∨ (2 ^ (L - 1) : Int) ≤ i) →
      int2bitstore i L true =
        .error (.intRange i L (-(2 ^ (L - 1) : Int)) ((2 ^ (L - 1) : Int) - 1)) ∧
      Err.namedBounds
          (.intRange i L (-(2 ^ (L - 1) : Int)) ((2 ^ (L - 1) : Int) - 1)) =
        some (-(2 ^ (L - 1) : Int), (2 ^ (L - 1) : Int) - 1)) ∧
    ((0 ≤ i ∧ i < 2 ^ L) →
      int2bitstore i L false = .ok (BitStore.ofBitarray (natToBitsBE L i.toNat))) ∧
    ((2 ^ L : Int) ≤ i →
      int2bitstore i L false = .error (.uintRange i L 0 ((2 ^ L : Int) - 1)) ∧
      Err.namedBounds (.uintRange i L 0 ((2 ^ L : Int) - 1)) =
        some (0, (2 ^ L : Int) - 1)) ∧
    (i < 0 → int2bitstore i L false = .error .uintNegative) ∧
    int2bitstore 255 8 false = .ok (BitStore.ofBitarray (List.replicate 8 true)) ∧
    int2bitstore 256 8 false = .error (.uintRange 256 8 0 255) := by
  have hL' : L ≠ 0 := by omega
  refine ⟨fun h => int2bitstore_signed_ok i L hL' h.1 h.2,
    fun h => ⟨int2bitstore_signed_err i L hL' h, rfl⟩,
    fun h => int2bitstore_unsigned_ok i L hL' h.1 h.2,
    fun h => ⟨int2bitstore_unsigned_err_high i L hL' h, rfl⟩,
    fun h => int2bitstore_unsigned_err_neg i L hL' h, by decide, by decide⟩

/-- C5 witness: the theorem applied at `i = 256`, `L = 8` (too-large
unsigned) with its hypotheses discharged concretely. -/
theorem c5_fixed_width_int_encode_witness :
    int2bitstore 256 8 false = .error (.uintRange 256 8 0 ((2 ^ 8 : Int) - 1)) :=
  (((c5_fixed_width_int_encode 256 8 (by norm_num)).2.2.2.1) (by norm_num)).1

/-- C5 counterexample.  The claim requires every out-of-range error
message to name the offending bound(s); encoding `-1` as an 8-bit
unsigned integer raises the `CreationError` "uint cannot be initialised
with a negative number.", whose message interpolates no bound at all. -/
theorem c5_negative_uint_names_no_bound_counterexample :
    int2bitstore (-1) 8 false = .error .uintNegative ∧
    Err.namedBounds .uintNegative = none := by
  refine ⟨by decide, rfl⟩

set_option maxRecDepth 1000000 in
set_option maxHeartbeats 4000000 in
/-- Exhaustive roundtrip check of the 8-bit float codes `0..15` for
both formats, by kernel computation. -/
theorem c6blk0 : ∀ d : Fin 16,
    slow_float_to_int8 (lutInt8ToFloat 4 8) (lutInt8ToFloat 4 8 (0 + d.val)) =
      ((0 + d.val : Nat) : Int) ∧
    slow_float_to_int8 (lutInt8ToFloat 5 16) (lutInt8ToFloat 5 16 (0 + d.val)) =
      ((0 + d.val : Nat) : Int) := by
  decide

set_option maxRecDepth 1000000 in
set_option maxHeartbeats 4000000 in
/-- Exhaustive roundtrip check of the 8-bit float codes `16..31` for
both formats, by kernel computation. -/
theorem c6blk1 : ∀ d : Fin 16,
    slow_float_to_int8 (lutInt8ToFloat 4 8) (lutInt8ToFloat 4 8 (16 + d.val)) =
      ((16 + d.val : Nat) : Int) ∧
    slow_float_to_int8 (lutInt8ToFloat 5 16) (lutInt8ToFloat 5 16 (16 + d.val)) =
      ((16 + d.val : Nat) : Int) := by
  decide

set_option maxRecDepth 1000000 in
set_option maxHeartbeats 4000000 in
/-- Exhaustive roundtrip check of the 8-bit float codes `32..47` for
both formats, by kernel computation. -/
theorem c6blk2 : ∀ d : Fin 16,
    slow_float_to_int8 (lutInt8ToFloat 4 8) (lutInt8ToFloat 4 8 (32 + d.val)) =
      ((32 + d.val : Nat) : Int) ∧
    slow_float_to_int8 (lutInt8ToFloat 5 16) (lutInt8ToFloat 5 16 (32 + d.val)) =
      ((32 + d.val : Nat) : Int) := by
  decide

set_option maxRecDepth 1000000 in
set_option maxHeartbeats 4000000 in
/-- Exhaustive roundtrip check of the 8-bit float codes `48..63` for
both formats, by kernel computation. -/
theorem c6blk3 : ∀ d : Fin 16,
    slow_float_to_int8 (lutInt8ToFloat 4 8) (lutInt8ToFloat 4 8 (48 + d.val)) =
      ((48 + d.val : Nat) : Int) ∧
    slow_float_to_int8 (lutInt8ToFloat 5 16) (lutInt8ToFloat 5 16 (48 + d.val)) =
      ((48 + d.val : Nat) : Int) := by
  decide

set_option maxRecDepth 1000000 in
set_option maxHeartbeats 4000000 in
/-- Exhaustive roundtrip check of the 8-bit float codes `64..79` for
both formats, by kernel computation. -/
theorem c6blk4 : ∀ d : Fin 16,
    slow_float_to_int8 (lutInt8ToFloat 4 8) (lutInt8ToFloat 4 8 (64 + d.val)) =
      ((64 + d.val : Nat) : Int) ∧
    slow_float_to_int8 (lutInt8ToFloat 5 16) (lutInt8ToFloat 5 16 (64 + d.val)) =
      ((64 + d.val : Nat) : Int) := by
  decide

set_option maxRecDepth 1000000 in
set_option maxHeartbeats 4000000 in
/-- Exhaustive roundtrip check of the 8-bit float codes `80..95` for
both formats, by kernel computation. -/
theorem c6blk5 : ∀ d : Fin 16,
    slow_float_to_int8 (lutInt8ToFloat 4 8) (lutInt8ToFloat 4 8 (80 + d.val)) =
      ((80 + d.val : Nat) : Int) ∧
    slow_float_to_int8 (lutInt8ToFloat 5 16) (lutInt8ToFloat 5 16 (80 + d.val)) =
      ((80 + d.val : Nat) : Int) := by
  decide

set_option maxRecDepth 1000000 in
set_option maxHeartbeats 4000000 in
/-- Exhaustive roundtrip check of the 8-bit float codes `96..111` for
both formats, by kernel computation. -/
theorem c6blk6 : ∀ d : Fin 16,
    slow_float_to_int8 (lutInt8ToFloat 4 8) (lutInt8ToFloat 4 8 (96 + d.val)) =
      ((96 + d.val : Nat) : Int) ∧
    slow_float_to_int8 (lutInt8ToFloat 5 16) (lutInt8ToFloat 5 16 (96 + d.val)) =
      ((96 + d.val : Nat) : Int) := by
  decide

set_option maxRecDepth 1000000 in
set_option maxHeartbeats 4000000 in
/-- Exhaustive roundtrip check of the 8-bit float codes `112..127` for
both formats, by kernel computation. -/
theorem c6blk7 : ∀ d : Fin 16,
    slow_float_to_int8 (lutInt8ToFloat 4 8) (lutInt8ToFloat 4 8 (112 + d.val)) =
      ((112 + d.val : Nat) : Int) ∧
    slow_float_to_int8 (lutInt8ToFloat 5 16) (lutInt8ToFloat 5 16 (112 + d.val)) =
      ((112 + d.val : Nat) : Int) := by
  decide

set_option maxRecDepth 1000000 in
set_option maxHeartbeats 4000000 in
/-- Exhaustive roundtrip check of the 8-bit float codes `128..143` for
both formats, by kernel computation. -/
theorem c6blk8 : ∀ d : Fin 16,
    slow_float_to_int8 (lutInt8ToFloat 4 8) (lutInt8ToFloat 4 8 (128 + d.val)) =
      ((128 + d.val : Nat) : Int) ∧
    slow_float_to_int8 (lutInt8ToFloat 5 16) (lutInt8ToFloat 5 16 (128 + d.val)) =
      ((128 + d.val : Nat) : Int) := by
  decide

set_option maxRecDepth 1000000 in
set_option maxHeartbeats 4000000 in
/-- Exhaustive roundtrip check of the 8-bit float codes `144..159` for
both formats, by kernel computation. -/
theorem c6blk9 : ∀ d : Fin 16,
    slow_float_to_int8 (lutInt8ToFloat 4 8) (lutInt8ToFloat 4 8 (144 + d.val)) =
      ((144 + d.val : Nat) : Int) ∧
    slow_float_to_int8 (lutInt8ToFloat 5 16) (lutInt8ToFloat 5 16 (144 + d.val)) =
      ((144 + d.val : Nat) : Int) := by
  decide

set_option maxRecDepth 1000000 in
set_option maxHeartbeats 4000000 in
/-- Exhaustive roundtrip check of the 8-bit float codes `160..175` for
both formats, by kernel computation. -/
theorem c6blk10 : ∀ d : Fin 16,
    slow_float_to_int8 (lutInt8ToFloat 4 8) (lutInt8ToFloat 4 8 (160 + d.val)) =
      ((160 + d.val : Nat) : Int) ∧
    slow_float_to_int8 (lutInt8ToFloat 5 16) (lutInt8ToFloat 5 16 (160 + d.val)) =
      ((160 + d.val : Nat) : Int) := by
  decide

set_option maxRecDepth 1000000 in
set_option maxHeartbeats 4000000 in
/-- Exhaustive roundtrip check of the 8-bit float codes `176..191` for
both formats, by kernel computation. -/
theorem c6blk11 : ∀ d : Fin 16,
    slow_float_to_int8 (lutInt8ToFloat 4 8) (lutInt8ToFloat 4 8 (176 + d.val)) =
      ((176 + d.val : Nat) : Int) ∧
    slow_float_to_int8 (lutInt8ToFloat 5 16) (lutInt8ToFloat 5 16 (176 + d.val)) =
      ((176 + d.val : Nat) : Int) := by
  decide

set_option maxRecDepth 1000000 in
set_option maxHeartbeats 4000000 in
/-- Exhaustive roundtrip check of the 8-bit float codes `192..207` for
both formats, by kernel computation. -/
theorem c6blk12 : ∀ d : Fin 16,
    slow_float_to_int8 (lutInt8ToFloat 4 8) (lutInt8ToFloat 4 8 (192 + d.val)) =
      ((192 + d.val : Nat) : Int) ∧
    slow_float_to_int8 (lutInt8ToFloat 5 16) (lutInt8ToFloat 5 16 (192 + d.val)) =
      ((192 + d.val : Nat) : Int) := by
  decide

set_option maxRecDepth 1000000 in
set_option maxHeartbeats 4000000 in
/-- Exhaustive roundtrip check of the 8-bit float codes `208..223` for
both formats, by kernel computation. -/
theorem c6blk13 : ∀ d : Fin 16,
    slow_float_to_int8 (lutInt8ToFloat 4 8) (lutInt8ToFloat 4 8 (208 + d.val)) =
      ((208 + d.val : Nat) : Int) ∧
    slow_float_to_int8 (lutInt8ToFloat 5 16) (lutInt8ToFloat 5 16 (208 + d.val)) =
      ((208 + d.val : Nat) : Int) := by
  decide

set_option maxRecDepth 1000000 in
set_option maxHeartbeats 4000000 in
/-- Exhaustive roundtrip check of the 8-bit float codes `224..239` for
both formats, by kernel computation. -/
theorem c6blk14 : ∀ d : Fin 16,
    slow_float_to_int8 (lutInt8ToFloat 4 8) (lutInt8ToFloat 4 8 (224 + d.val)) =
      ((224 + d.val : Nat) : Int) ∧
    slow_float_to_int8 (lutInt8ToFloat 5 16) (lutInt8ToFloat 5 16 (224 + d.val)) =
      ((224 + d.val : Nat) : Int) := by
  decide

set_option maxRecDepth 1000000 in
set_option maxHeartbeats 4000000 in
/-- Exhaustive roundtrip check of the 8-bit float codes `240..255` for
both formats, by kernel computation. -/
theorem c6blk15 : ∀ d : Fin 16,
    slow_float_to_int8 (lutInt8ToFloat 4 8) (lutInt8ToFloat 4 8 (240 + d.val)) =
      ((240 + d.val : Nat) : Int) ∧
    slow_float_to_int8 (lutInt8ToFloat 5 16) (lutInt8ToFloat 5 16 (240 + d.val)) =
      ((240 + d.val : Nat) : Int) := by
  decide

/-- C6.  For both 8-bit float formats (e4m3-like: 4 exponent bits, bias 8;
e5m2-like: 5 exponent bits, bias 16) and for every code `c` in `0..255`,
encoding the float obtained by decoding `c` yields `c` again:
`slow_float_to_int8 lut (lut c) = c`, where `lut` is the 256-entry decode
table built by sign/exponent/mantissa reconstruction (exponent field 0
meaning subnormal, code `1000_0000` meaning NaN) and the encoder is the
round-toward-zero scan with saturation at the maximum finite code, both
taken from `src/tests/test_fp8.py`. -/
theorem c6_float8_code_roundtrip :
    ∀ c : Fin 256,
      slow_float_to_int8 (lutInt8ToFloat 4 8) (lutInt8ToFloat 4 8 c) = (c : Int) ∧
      slow_float_to_int8 (lutInt8ToFloat 5 16) (lutInt8ToFloat 5 16 c) = (c : Int) := by
  intro c
  obtain ⟨v, hv⟩ := c
  show slow_float_to_int8 (lutInt8ToFloat 4 8) (lutInt8ToFloat 4 8 v) = (v : Int) ∧
    slow_float_to_int8 (lutInt8ToFloat 5 16) (lutInt8ToFloat 5 16 v) = (v : Int)
  rcases Nat.lt_or_ge v 16 with h0 | h0
  · have he : 0 + (v - 0) = v := by omega
    rw [← he]
    exact c6blk0 ⟨v - 0, by omega⟩
  rcases Nat.lt_or_ge v 32 with h1 | h1
  · have he : 16 + (v - 16) = v := by omega
    rw [← he]
    exact c6blk1 ⟨v - 16, by omega⟩
  rcases Nat.lt_or_ge v 48 with h2 | h2
  · have he : 32 + (v - 32) = v := by omega
    rw [← he]
    exact c6blk2 ⟨v - 32, by omega⟩
  rcases Nat.lt_or_ge v 64 with h3 | h3
  · have he : 48 + (v - 48) = v := by omega
    rw [← he]
    exact c6blk3 ⟨v - 48, by omega⟩
  rcases Nat.lt_or_ge v 80 with h4 | h4
  · have he : 64 + (v - 64) = v := by omega
    rw [← he]
    exact c6blk4 ⟨v - 64, by omega⟩
  rcases Nat.lt_or_ge v 96 with h5 | h5
  · have he : 80 + (v - 80) = v := by omega
    rw [← he]
    exact c6blk5 ⟨v - 80, by omega⟩
  rcases Nat.lt_or_ge v 112 with h6 | h6
  · have he : 96 + (v - 96) = v := by omega
    rw [← he]
    exact c6blk6 ⟨v - 96, by omega⟩
  rcases Nat.lt_or_ge v 128 with h7 | h7
  · have he : 112 + (v - 112) = v := by omega
    rw [← he]
    exact c6blk7 ⟨v - 112, by omega⟩
  rcases Nat.lt_or_ge v 144 with h8 | h8
  · have he : 128 + (v - 128) = v := by omega
    rw [← he]
    exact c6blk8 ⟨v - 128, by omega⟩
  rcases Nat.lt_or_ge v 160 with h9 | h9
  · have he : 144 + (v - 144) = v := by omega
    rw [← he]
    exact c6blk9 ⟨v - 144, by omega⟩
  rcases Nat.lt_or_ge v 176 with h10 | h10
  · have he : 160 + (v - 160) = v := by omega
    rw [← he]
    exact c6blk10 ⟨v - 160, by omega⟩
  rcases Nat.lt_or_ge v 192 with h11 | h11
  · have he : 176 + (v - 176) = v := by omega
    rw [← he]
    exact c6blk11 ⟨v - 176, by omega⟩
  rcases Nat.lt_or_ge v 208 with h12 | h12
  · have he : 192 + (v - 192) = v := by omega
    rw [← he]
    exact c6blk12 ⟨v - 192, by omega⟩
  rcases Nat.lt_or_ge v 224 with h13 | h13
  · have he : 208 + (v - 208) = v := by omega
    rw [← he]
    exact c6blk13 ⟨v - 208, by omega⟩
  rcases Nat.lt_or_ge v 240 with h14 | h14
  · have he : 224 + (v - 224) = v := by omega
    rw [← he]
    exact c6blk14 ⟨v - 224, by omega⟩
  have he : 240 + (v - 240) = v := by omega
  rw [← he]
  exact c6blk15 ⟨v - 240, by omega⟩

/-- Packing a valid scalar code point and reading it back is the identity. -/
theorem char_toNat_ofNat_lt {n : Nat} (h : n < 55296) : (Char.ofNat n).toNat = n := by
  have hv : n.isValidChar := Or.inl h
  simp only [Char.ofNat, hv, Char.ofNatAux, Char.toNat, dif_pos]
  rfl

/-- Code point of a lowercased uppercase letter. -/
theorem pyLower_toNat_upper (c : Char) (h : 65 ≤ c.toNat ∧ c.toNat ≤ 90) :
    (pyLower c).toNat = c.toNat + 32 := by
  unfold pyLower
  rw [if_pos h]
  exact char_toNat_ofNat_lt (by omega)

/-- `pyLower` fixes everything that is not an uppercase letter. -/
theorem pyLower_fixed (c : Char) (h : ¬(65 ≤ c.toNat ∧ c.toNat ≤ 90)) :
    pyLower c = c := by
  unfold pyLower
  rw [if_neg h]

/-- Lowercasing is idempotent. -/
theorem pyLower_idem (c : Char) : pyLower (pyLower c) = pyLower c := by
  by_cases h : 65 ≤ c.toNat ∧ c.toNat ≤ 90
  · have ht := pyLower_toNat_upper c h
    rw [pyLower_fixed (pyLower c) (by omega)]
  · rw [pyLower_fixed c h, pyLower_fixed c h]

/-- Unfolding of the whitespace test. -/
theorem isPyWhitespace_iff (c : Char) :
    isPyWhitespace c = true ↔
      (c.toNat = 32 ∨ c.toNat = 9 ∨ c.toNat = 10 ∨ c.toNat = 13 ∨
        c.toNat = 11 ∨ c.toNat = 12) := by
  simp [isPyWhitespace, or_assoc]

/-- Lowercasing does not change whether a character is whitespace. -/
theorem isPyWhitespace_pyLower (c : Char) :
    isPyWhitespace (pyLower c) = isPyWhitespace c := by
  by_cases h : 65 ≤ c.toNat ∧ c.toNat ≤ 90
  · have ht := pyLower_toNat_upper c h
    have hA : isPyWhitespace (pyLower c) = false := by
      rw [Bool.eq_false_iff, Ne, isPyWhitespace_iff, ht]
      omega
    have hB : isPyWhitespace c = false := by
      rw [Bool.eq_false_iff, Ne, isPyWhitespace_iff]
      omega
    rw [hA, hB]
  · rw [pyLower_fixed c h]

/-- Lowercasing does not change whether a character is the underscore. -/
theorem pyLower_toNat_95_iff (c : Char) :
    (pyLower c).toNat = 95 ↔ c.toNat = 95 := by
  by_cases h : 65 ≤ c.toNat ∧ c.toNat ≤ 90
  · have ht := pyLower_toNat_upper c h
    constructor <;> (intro hx; omega)
  · rw [pyLower_fixed c h]

/-- `tidy_input_string` agrees with its one-pass recursion. -/
theorem tidy_input_string_eq_tidyScan (s : List Char) :
    tidy_input_string s = tidyScan s := by
  induction s with
  | nil => rfl
  | cons c rest ih =>
    simp only [tidy_input_string] at ih ⊢
    simp only [decide_not] at ih ⊢
    simp only [tidyScan, List.filter_cons]
    by_cases hw : isPyWhitespace c
    · simp [hw, ih]
    · by_cases hu : (pyLower c).toNat = 95
      · simp [hw, hu, ih]
      · simp [hw, hu, ih]

/-- Tidying is invariant under prior lowercasing. -/
theorem tidyScan_map_pyLower (s : List Char) :
    tidyScan (s.map pyLower) = tidyScan s := by
  induction s with
  | nil => rfl
  | cons c rest ih =>
    simp only [List.map_cons, tidyScan, isPyWhitespace_pyLower, pyLower_idem, ih]

/-- Tidying is invariant under prior removal of whitespace and
underscores. -/
theorem tidyScan_filter_wsund (s : List Char) :
    tidyScan (s.filter fun c => !isPyWhitespace c && c.toNat ≠ 95) = tidyScan s := by
  induction s with
  | nil => rfl
  | cons c rest ih =>
    simp only [decide_not] at ih ⊢
    simp only [List.filter_cons]
    by_cases hw : isPyWhitespace c
    · simp [tidyScan, hw, ih]
    · by_cases hu : c.toNat = 95
      · have hu' : (pyLower c).toNat = 95 := (pyLower_toNat_95_iff c).mpr hu
        simp [tidyScan, hw, hu, hu', ih]
      · have hu' : ¬((pyLower c).toNat = 95) := fun hx => hu ((pyLower_toNat_95_iff c).mp hx)
        simp [tidyScan, hw, hu, hu', ih]

/-- `digitsToBits` fails exactly when the input contains a character that
is not a digit of the base. -/
theorem digitsToBits_error_iff (digit : Char → Option Nat) (w : Nat) (e : Err)
    (t : List Char) :
    (∃ er, digitsToBits digit w e t = .error er) ↔ ∃ c ∈ t, digit c = none := by
  induction t with
  | nil => simp [digitsToBits]
  | cons c rest ih =>
    simp only [digitsToBits]
    cases hd : digit c with
    | none => simp [hd]
    | some v =>
      cases hr : digitsToBits digit w e rest with
      | error er =>
        simp only [hr, Except.map, List.mem_cons]
        constructor
        · intro _
          exact ⟨_, Or.inr (ih.mp ⟨er, hr⟩).choose_spec.1, (ih.mp ⟨er, hr⟩).choose_spec.2⟩
        · intro _
          exact ⟨er, rfl⟩
      | ok bs =>
        simp only [hr, Except.map, List.mem_cons]
        constructor
        · rintro ⟨er, h⟩
          exact absurd h (by simp)
        · rintro ⟨x, hx | hx, hnone⟩
          · rw [hx] at hnone
            rw [hnone] at hd
            exact Option.noConfusion hd
          · exact absurd (ih.mpr ⟨x, hx, hnone⟩) (by simp [hr])

/-- A mapped `Except` is an error exactly when the original is. -/
theorem except_map_error_iff {ε α β : Type} (f : α → β) (x : Except ε α) :
    (∃ e, x.map f = .error e) ↔ ∃ e, x = .error e := by
  cases x <;> simp [Except.map]

/-- A character that is neither whitespace, nor uppercase, nor the
underscore passes through the tidy scan unchanged. -/
theorem tidyScan_cons_keep (c : Char) (s : List Char) (hw : isPyWhitespace c = false)
    (hl : pyLower c = c) (hu : c.toNat ≠ 95) :
    tidyScan (c :: s) = c :: tidyScan s := by
  simp [tidyScan, hw, hl, hu]

/-- Deleting a marker occurrence at the head of the scan. -/
theorem dropMarker_cons_marker (p0 p1 : Nat) (a b : Char) (t : List Char)
    (h : a.toNat = p0 ∧ b.toNat = p1) :
    dropMarker p0 p1 (a :: b :: t) = dropMarker p0 p1 t := by
  simp [dropMarker, h]

/-- C8 (amended).  Textual hex, binary and octal literal decoding is
case-insensitive, invariant under removal (hence insertion) of whitespace
and underscores anywhere in the string, and accepts a leading
conventional prefix (`0x`/`0b`/`0o`); `"0x_fF"` decodes to the same store
as `"0b11111111"`.  An invalid-character creation error is raised exactly
when a non-digit character remains after whitespace/underscore removal
and deletion of every `0x`/`0b`/`0o` marker occurrence — the markers are
removed wherever they occur, not only as a leading prefix. -/
theorem c8_literal_decoding :
    (∀ s : List Char, hex2bitstore (s.map pyLower) = hex2bitstore s) ∧
    (∀ s : List Char, bin2bitstore (s.map pyLower) = bin2bitstore s) ∧
    (∀ s : List Char, oct2bitstore (s.map pyLower) = oct2bitstore s) ∧
    (∀ s : List Char,
      hex2bitstore (s.filter fun c => !isPyWhitespace c && c.toNat ≠ 95) =
        hex2bitstore s) ∧
    (∀ s : List Char,
      bin2bitstore (s.filter fun c => !isPyWhitespace c && c.toNat ≠ 95) =
        bin2bitstore s) ∧
    (∀ s : List Char,
      oct2bitstore (s.filter fun c => !isPyWhitespace c && c.toNat ≠ 95) =
        oct2bitstore s) ∧
    (∀ s : List Char, hex2bitstore ('0' :: 'x' :: s) = hex2bitstore s) ∧
    (∀ s : List Char, bin2bitstore ('0' :: 'b' :: s) = bin2bitstore s) ∧
    (∀ s : List Char, oct2bitstore ('0' :: 'o' :: s) = oct2bitstore s) ∧
    (∀ s : List Char, (∃ e, hex2bitstore s = .error e) ↔
      ∃ c ∈ dropMarker 48 120 (tidy_input_string s), hexDigitVal c = none) ∧
    (∀ s : List Char, (∃ e, bin2bitstore s = .error e) ↔
      ∃ c ∈ dropMarker 48 98 (tidy_input_string s), binDigitVal c = none) ∧
    (∀ s : List Char, (∃ e, oct2bitstore s = .error e) ↔
      ∃ c ∈ dropMarker 48 111 (tidy_input_string s), octDigitVal c = none) ∧
    hex2bitstore ['0', 'x', '_', 'f', 'F'] =
      bin2bitstore ['0', 'b', '1', '1', '1', '1', '1', '1', '1', '1'] := by
  refine ⟨?_, ?_, ?_, ?_, ?_, ?_, ?_, ?_, ?_, ?_, ?_, ?_, by decide⟩
  · intro s
    unfold hex2bitstore
    rw [tidy_input_string_eq_tidyScan, tidy_input_string_eq_tidyScan,
      tidyScan_map_pyLower]
  · intro s
    unfold bin2bitstore
    rw [tidy_input_string_eq_tidyScan, tidy_input_string_eq_tidyScan,
      tidyScan_map_pyLower]
  · intro s
    unfold oct2bitstore
    rw [tidy_input_string_eq_tidyScan, tidy_input_string_eq_tidyScan,
      tidyScan_map_pyLower]
  · intro s
    unfold hex2bitstore
    rw [tidy_input_string_eq_tidyScan, tidy_input_string_eq_tidyScan,
      tidyScan_filter_wsund]
  · intro s
    unfold bin2bitstore
    rw [tidy_input_string_eq_tidyScan, tidy_input_string_eq_tidyScan,
      tidyScan_filter_wsund]
  · intro s
    unfold oct2bitstore
    rw [tidy_input_string_eq_tidyScan, tidy_input_string_eq_tidyScan,
      tidyScan_filter_wsund]
  · intro s
    unfold hex2bitstore
    rw [tidy_input_string_eq_tidyScan, tidy_input_string_eq_tidyScan,
      tidyScan_cons_keep '0' _ (by decide) (by decide) (by decide),
      tidyScan_cons_keep 'x' _ (by decide) (by decide) (by decide),
      dropMarker_cons_marker 48 120 '0' 'x' _ (by decide)]
  · intro s
    unfold bin2bitstore
    rw [tidy_input_string_eq_tidyScan, tidy_input_string_eq_tidyScan,
      tidyScan_cons_keep '0' _ (by decide) (by decide) (by decide),
      tidyScan_cons_keep 'b' _ (by decide) (by decide) (by decide),
      dropMarker_cons_marker 48 98 '0' 'b' _ (by decide)]
  · intro s
    unfold oct2bitstore
    rw [tidy_input_string_eq_tidyScan, tidy_input_string_eq_tidyScan,
      tidyScan_cons_keep '0' _ (by decide) (by decide) (by decide),
      tidyScan_cons_keep 'o' _ (by decide) (by decide) (by decide),
      dropMarker_cons_marker 48 111 '0' 'o' _ (by decide)]
  · intro s
    unfold hex2bitstore
    rw [except_map_error_iff]
    exact digitsToBits_error_iff hexDigitVal 4 .invalidHexSymbol _
  · intro s
    unfold bin2bitstore
    rw [except_map_error_iff]
    exact digitsToBits_error_iff binDigitVal 1 .invalidBinChar _
  · intro s
    unfold oct2bitstore
    rw [except_map_error_iff]
    exact digitsToBits_error_iff octDigitVal 3 .invalidOctSymbol _

/-- C8 counterexample.  The claim as stated accepts only an optional
leading conventional prefix and demands an invalid-character error for
any other character.  The string `"10x"` contains `x` — not a digit, not
whitespace, not an underscore — and does not start with the `0x` prefix,
yet it decodes without error (to the bits of `"1"`), because the decoder
deletes the marker `0x` wherever it occurs. -/
theorem c8_nonleading_marker_accepted_counterexample :
    hex2bitstore ['1', '0', 'x'] =
      .ok (BitStore.ofBitarray [false, false, false, true]) ∧
    hexDigitVal 'x' = none ∧
    isPyWhitespace 'x' = false ∧
    ('x').toNat ≠ 95 ∧
    tidy_input_string ['1', '0', 'x'] = ['1', '0', 'x'] := by
  refine ⟨by decide, by decide, by decide, by decide, by decide⟩

/-- Powers of two are positive in `ℚ`. -/
theorem two_zpow_pos (e : Int) : (0 : ℚ) < (2 : ℚ) ^ e :=
  zpow_pos (by norm_num) e

/-- Scaling a dyadic down to a not-larger exponent represents its value
exactly, up to the global factor `2^(-g)`. -/
theorem Dy.scaleTo_cast (x : Dy) (g : Int) (h : g ≤ x.e) :
    ((x.scaleTo g : Int) : ℚ) = x.toRat * (2 : ℚ) ^ (-g) := by
  unfold Dy.scaleTo Dy.toRat
  push_cast
  rw [← zpow_natCast (2 : ℚ) (x.e - g).toNat, Int.toNat_of_nonneg (by omega : (0:Int) ≤ x.e - g),
    sub_eq_add_neg, zpow_add₀ (by norm_num : (2 : ℚ) ≠ 0), mul_assoc]

/-- The Boolean dyadic comparison decides the exact value order. -/
theorem Dy.blt_iff (x y : Dy) : Dy.blt x y = true ↔ x.toRat < y.toRat := by
  unfold Dy.blt
  rw [decide_eq_true_eq]
  have h1 := Dy.scaleTo_cast x (min x.e y.e) (min_le_left _ _)
  have h2 := Dy.scaleTo_cast y (min x.e y.e) (min_le_right _ _)
  constructor
  · intro h
    have hc : ((x.scaleTo (min x.e y.e) : Int) : ℚ) < ((y.scaleTo (min x.e y.e) : Int) : ℚ) := by
      exact_mod_cast h
    rw [h1, h2] at hc
    exact lt_of_mul_lt_mul_right hc (le_of_lt (two_zpow_pos _))
  · intro h
    have hc : x.toRat * (2 : ℚ) ^ (-(min x.e y.e)) < y.toRat * (2 : ℚ) ^ (-(min x.e y.e)) :=
      mul_lt_mul_of_pos_right h (two_zpow_pos _)
    rw [← h1, ← h2] at hc
    exact_mod_cast hc

/-- The Boolean dyadic comparison decides the exact value order (`≤`). -/
theorem Dy.ble_iff (x y : Dy) : Dy.ble x y = true ↔ x.toRat ≤ y.toRat := by
  rw [← not_lt, ← Dy.blt_iff y x]
  cases h : Dy.blt y x <;> simp [Dy.ble, h]

/-- `dyAbs` computes the absolute value. -/
theorem dyAbs_toRat (x : Dy) : (dyAbs x).toRat = |x.toRat| := by
  unfold dyAbs Dy.toRat
  rw [abs_mul, abs_of_pos (two_zpow_pos x.e)]
  push_cast
  rfl

/-- The halving loop brackets a positive dyadic between consecutive powers
of two: `2^dyLog2 ≤ x < 2^(dyLog2 + 1)`. -/
theorem dyLog2_bounds (x : Dy) (h : 0 < x.m) :
    (2 : ℚ) ^ dyLog2 x ≤ x.toRat ∧ x.toRat < (2 : ℚ) ^ (dyLog2 x + 1) := by
  have hne : x.m.toNat ≠ 0 := by omega
  obtain ⟨hpos, hlo, hhi⟩ := bitStepsAux_bounds x.m.toNat x.m.toNat hne le_rfl
  have hb : bitSteps x.m.toNat = bitStepsAux x.m.toNat x.m.toNat := rfl
  unfold dyLog2 Dy.toRat
  rw [hb]
  set sz := bitStepsAux x.m.toNat x.m.toNat with hsz
  have hmr : ((x.m.toNat : ℚ)) = (x.m : ℚ) := by
    have h2 : ((x.m.toNat : Int)) = x.m := Int.toNat_of_nonneg (le_of_lt h)
    exact_mod_cast h2
  have e1 : (2 : ℚ) ^ ((sz : Int) - 1 + x.e) = (2 : ℚ) ^ ((sz : Int) - 1) * (2 : ℚ) ^ x.e := by
    rw [← zpow_add₀ (by norm_num : (2 : ℚ) ≠ 0)]
  have e2 : (2 : ℚ) ^ ((sz : Int) - 1) = ((2 ^ (sz - 1) : Nat) : ℚ) := by
    rw [show ((sz : Int) - 1) = (((sz - 1 : Nat)) : Int) from by omega, zpow_natCast]
    push_cast
    rfl
  have e3 : (2 : ℚ) ^ ((sz : Int) - 1 + x.e + 1) = ((2 ^ sz : Nat) : ℚ) * (2 : ℚ) ^ x.e := by
    rw [show ((sz : Int) - 1 + x.e + 1) = ((sz : Nat) : Int) + x.e from by omega,
      zpow_add₀ (by norm_num : (2 : ℚ) ≠ 0), zpow_natCast]
    push_cast
    rfl
  constructor
  · rw [e1, e2]
    have hc : ((2 ^ (sz - 1) : Nat) : ℚ) ≤ (x.m : ℚ) := by
      rw [← hmr]
      exact_mod_cast hlo
    exact mul_le_mul_of_nonneg_right hc (le_of_lt (two_zpow_pos x.e))
  · rw [e3]
    have hc : (x.m : ℚ) < ((2 ^ sz : Nat) : ℚ) := by
      rw [← hmr]
      exact_mod_cast hhi
    exact mul_lt_mul_of_pos_right hc (two_zpow_pos x.e)

/-- A dyadic with a non-negative exponent is the integer
`m * 2^(toNat e)`. -/
theorem Dy.toRat_int (y : Dy) (he : 0 ≤ y.e) :
    ((y.m * 2 ^ y.e.toNat : Int) : ℚ) = y.toRat := by
  unfold Dy.toRat
  push_cast
  rw [← zpow_natCast (2 : ℚ) y.e.toNat, Int.toNat_of_nonneg he]

/-- Round-to-nearest-even of a dyadic lying in `[q, q + 1/2)` is `q`. -/
theorem dyRnd_eq_floor (y : Dy) (q : Int) (h1 : (q : ℚ) ≤ y.toRat)
    (h2 : y.toRat < (q : ℚ) + 1 / 2) : dyRndHalfEven y = q := by
  unfold dyRndHalfEven
  by_cases he : 0 ≤ y.e
  · rw [if_pos he]
    have hv := Dy.toRat_int y he
    have h3 : (q : ℚ) ≤ ((y.m * 2 ^ y.e.toNat : Int) : ℚ) := by rw [hv]; exact h1
    have h4 : ((y.m * 2 ^ y.e.toNat : Int) : ℚ) < ((q + 1 : Int) : ℚ) := by
      rw [hv]
      push_cast
      linarith
    have h3' : q ≤ y.m * 2 ^ y.e.toNat := by exact_mod_cast h3
    have h4' : y.m * 2 ^ y.e.toNat < q + 1 := by exact_mod_cast h4
    omega
  · rw [if_neg he]
    set d := (-y.e).toNat with hdd
    have hpow : (0 : Int) < 2 ^ d := by positivity
    have hdecomp := Int.fdiv_add_fmod y.m (2 ^ d)
    set Q := Int.fdiv y.m (2 ^ d) with hQ
    set R := y.m.fmod (2 ^ d) with hR
    have hR0 : 0 ≤ R := Int.fmod_nonneg' y.m hpow
    have hRlt : R < 2 ^ d := Int.fmod_lt_of_pos y.m hpow
    have hed : y.e = -(d : Int) := by omega
    set P : ℚ := ((2 ^ d : Int) : ℚ) with hP
    have hPpos : (0 : ℚ) < P := by rw [hP]; exact_mod_cast hpow
    have hPne : P ≠ 0 := ne_of_gt hPpos
    have hPdef : P = (2 : ℚ) ^ ((d : Nat) : Int) := by
      rw [hP, zpow_natCast]
      push_cast
      rfl
    have htoRat : y.toRat = (y.m : ℚ) / P := by
      unfold Dy.toRat
      rw [hed, zpow_neg, ← hPdef, div_eq_mul_inv]
    have hm : (y.m : ℚ) = (Q : ℚ) * P + (R : ℚ) := by
      rw [hP]
      exact_mod_cast (by linarith : y.m = Q * 2 ^ d + R)
    have hsplit : y.toRat = (Q : ℚ) + (R : ℚ) / P := by
      rw [htoRat, hm]
      field_simp
    have hf0 : (0 : ℚ) ≤ (R : ℚ) / P := div_nonneg (by exact_mod_cast hR0) (le_of_lt hPpos)
    have hf1 : (R : ℚ) / P < 1 := by
      rw [div_lt_one hPpos, hP]
      exact_mod_cast hRlt
    have hQq : Q = q := by
      have b1 : (Q : ℚ) < (q : ℚ) + 1 := by
        have a1 : (Q : ℚ) ≤ y.toRat := by rw [hsplit]; linarith
        linarith
      have b2 : (q : ℚ) < (Q : ℚ) + 1 := by
        have a2 : y.toRat < (Q : ℚ) + 1 := by rw [hsplit]; linarith
        linarith
      have c1 : Q < q + 1 := by exact_mod_cast b1
      have c2 : q < Q + 1 := by exact_mod_cast b2
      omega
    have hfrac : (R : ℚ) / P < 1 / 2 := by
      have hx := h2
      rw [hsplit, hQq] at hx
      linarith
    have hbranch : 2 * (y.m - Q * 2 ^ d) < 2 ^ d := by
      have hRe : y.m - Q * 2 ^ d = R := by linarith
      rw [hRe]
      have hc : (2 : ℚ) * (R : ℚ) < P := by
        rw [div_lt_iff hPpos] at hfrac
        linarith
      rw [hP] at hc
      exact_mod_cast hc
    rw [if_pos hbranch]
    exact hQq

/-- Round-to-nearest-even of a dyadic lying in `[q + 1/2, q + 1)` for odd
`q` is `q + 1` (the tie goes to the even side). -/
theorem dyRnd_eq_ceil (y : Dy) (q : Int) (hodd : q % 2 ≠ 0)
    (h1 : (q : ℚ) + 1 / 2 ≤ y.toRat) (h2 : y.toRat < (q : ℚ) + 1) :
    dyRndHalfEven y = q + 1 := by
  unfold dyRndHalfEven
  by_cases he : 0 ≤ y.e
  · exfalso
    have hv := Dy.toRat_int y he
    have h1' : (q : ℚ) + 1 / 2 ≤ ((y.m * 2 ^ y.e.toNat : Int) : ℚ) := by rw [hv]; exact h1
    have h2' : ((y.m * 2 ^ y.e.toNat : Int) : ℚ) < ((q + 1 : Int) : ℚ) := by
      rw [hv]
      push_cast
      linarith
    have h3' : 2 * q + 1 ≤ 2 * (y.m * 2 ^ y.e.toNat) := by
      have hc : ((2 * q + 1 : Int) : ℚ) ≤ ((2 * (y.m * 2 ^ y.e.toNat) : Int) : ℚ) := by
        push_cast
        push_cast at h1'
        linarith
      exact_mod_cast hc
    have h4' : y.m * 2 ^ y.e.toNat < q + 1 := by exact_mod_cast h2'
    omega
  · rw [if_neg he]
    set d := (-y.e).toNat with hdd
    have hpow : (0 : Int) < 2 ^ d := by positivity
    have hdecomp := Int.fdiv_add_fmod y.m (2 ^ d)
    set Q := Int.fdiv y.m (2 ^ d) with hQ
    set R := y.m.fmod (2 ^ d) with hR
    have hR0 : 0 ≤ R := Int.fmod_nonneg' y.m hpow
    have hRlt : R < 2 ^ d := Int.fmod_lt_of_pos y.m hpow
    have hed : y.e = -(d : Int) := by omega
    set P : ℚ := ((2 ^ d : Int) : ℚ) with hP
    have hPpos : (0 : ℚ) < P := by rw [hP]; exact_mod_cast hpow
    have hPne : P ≠ 0 := ne_of_gt hPpos
    have hPdef : P = (2 : ℚ) ^ ((d : Nat) : Int) := by
      rw [hP, zpow_natCast]
      push_cast
      rfl
    have htoRat : y.toRat = (y.m : ℚ) / P := by
      unfold Dy.toRat
      rw [hed, zpow_neg, ← hPdef, div_eq_mul_inv]
    have hm : (y.m : ℚ) = (Q : ℚ) * P + (R : ℚ) := by
      rw [hP]
      exact_mod_cast (by linarith : y.m = Q * 2 ^ d + R)
    have hsplit : y.toRat = (Q : ℚ) + (R : ℚ) / P := by
      rw [htoRat, hm]
      field_simp
    have hf0 : (0 : ℚ) ≤ (R : ℚ) / P := div_nonneg (by exact_mod_cast hR0) (le_of_lt hPpos)
    have hf1 : (R : ℚ) / P < 1 := by
      rw [div_lt_one hPpos, hP]
      exact_mod_cast hRlt
    have hQq : Q = q := by
      have b1 : (Q : ℚ) < (q : ℚ) + 1 := by
        have a1 : (Q : ℚ) ≤ y.toRat := by rw [hsplit]; linarith
        linarith
      have b2 : (q : ℚ) < (Q : ℚ) + 1 := by
        have a2 : y.toRat < (Q : ℚ) + 1 := by rw [hsplit]; linarith
        linarith
      have c1 : Q < q + 1 := by exact_mod_cast b1
      have c2 : q < Q + 1 := by exact_mod_cast b2
      omega
    have hfrac : (1 : ℚ) / 2 ≤ (R : ℚ) / P := by
      have hx := h1
      rw [hsplit, hQq] at hx
      linarith
    have hRe : y.m - Q * 2 ^ d = R := by linarith
    have h2R : 2 ^ d ≤ 2 * R := by
      have hc : P ≤ (2 : ℚ) * (R : ℚ) := by
        rw [le_div_iff hPpos] at hfrac
        linarith
      rw [hP] at hc
      exact_mod_cast hc
    rw [if_neg (by rw [hRe]; omega)]
    by_cases htie : 2 ^ d < 2 * (y.m - Q * 2 ^ d)
    · rw [if_pos htie]
      have hQq' : Int.fdiv y.m (2 ^ d) = q := hQq
      rw [hQq']
    · rw [if_neg htie]
      have hq2 : ¬(Int.fdiv y.m (2 ^ d) % 2 = 0) := by
        have hQq' : Int.fdiv y.m (2 ^ d) = q := hQq
        rw [hQq']
        exact hodd
      rw [if_neg hq2]
      have hQq' : Int.fdiv y.m (2 ^ d) = q := hQq
      rw [hQq']

/-- Shifting a dyadic's exponent multiplies its value by a power of two. -/
theorem Dy.toRat_shift (x : Dy) (s : Int) :
    (⟨x.m, x.e - s⟩ : Dy).toRat = x.toRat * (2 : ℚ) ^ (-s) := by
  unfold Dy.toRat
  rw [sub_eq_add_neg, zpow_add₀ (by norm_num : (2 : ℚ) ≠ 0), mul_assoc]

/-- The overflow threshold expressed through the mantissa and exponent
scale factors. -/
theorem overflowBound_toRat (fmt : IEEEFmt) :
    (overflowBound fmt).toRat =
      ((2 : ℚ) * (2 : ℚ) ^ fmt.mb - 1 / 2) * (2 : ℚ) ^ ((fmt.emax : Int) - fmt.mb) := by
  unfold overflowBound Dy.toRat
  push_cast
  rw [show ((fmt.emax : Int) - fmt.mb - 1) = ((fmt.emax : Int) - fmt.mb) + (-1) from by ring,
    zpow_add₀ (by norm_num : (2 : ℚ) ≠ 0), pow_succ, pow_succ]
  have h1 : (2 : ℚ) ^ (-1 : Int) = 1 / 2 := by norm_num
  rw [h1]
  ring

/-- The largest finite magnitude expressed through the mantissa and
exponent scale factors. -/
theorem maxFinite_toRat (fmt : IEEEFmt) :
    (maxFinite fmt).toRat =
      ((2 : ℚ) * (2 : ℚ) ^ fmt.mb - 1) * (2 : ℚ) ^ ((fmt.emax : Int) - fmt.mb) := by
  unfold maxFinite Dy.toRat
  push_cast
  rw [pow_succ]
  ring

/-- A positive magnitude at or above the overflow threshold makes
`encodePos` raise the overflow error. -/
theorem encodePos_overflow (fmt : IEEEFmt) (x : Dy) (hm : 0 < x.m)
    (hbias : 1 ≤ fmt.bias)
    (h : (overflowBound fmt).toRat ≤ x.toRat) :
    encodePos fmt x = .error () := by
  obtain ⟨hlo, hhi⟩ := dyLog2_bounds x hm
  have hE : (0 : ℚ) < (2 : ℚ) ^ ((fmt.emax : Int) - fmt.mb) := two_zpow_pos _
  have hM : (1 : ℚ) ≤ (2 : ℚ) ^ fmt.mb := one_le_pow₀ (by norm_num)
  have hsplitpow : (2 : ℚ) ^ (fmt.emax : Int) =
      (2 : ℚ) ^ fmt.mb * (2 : ℚ) ^ ((fmt.emax : Int) - fmt.mb) := by
    rw [← zpow_natCast (2 : ℚ) fmt.mb, ← zpow_add₀ (by norm_num : (2 : ℚ) ≠ 0)]
    congr 1
    ring
  have hthr_ge : (2 : ℚ) ^ (fmt.emax : Int) ≤ (overflowBound fmt).toRat := by
    rw [overflowBound_toRat, hsplitpow]
    have : (2 : ℚ) ^ fmt.mb ≤ 2 * (2 : ℚ) ^ fmt.mb - 1 / 2 := by linarith
    exact mul_le_mul_of_nonneg_right this (le_of_lt hE)
  have hxge : (2 : ℚ) ^ (fmt.emax : Int) ≤ x.toRat := le_trans hthr_ge h
  have hlg_ge : fmt.emax ≤ dyLog2 x := by
    have hc : (2 : ℚ) ^ (fmt.emax : Int) < (2 : ℚ) ^ (dyLog2 x + 1) := lt_of_le_of_lt hxge hhi
    have := (zpow_lt_zpow_iff_right₀ (by norm_num : (1 : ℚ) < 2)).mp hc
    omega
  have hemin : fmt.emin ≤ dyLog2 x := by
    unfold IEEEFmt.emin at *
    unfold IEEEFmt.emax at *
    omega
  have hmax : max (dyLog2 x) fmt.emin = dyLog2 x := max_eq_left hemin
  simp only [encodePos, hmax]
  by_cases hcase : fmt.emax < dyLog2 x
  · have hcond : fmt.emax <
        (if dyRndHalfEven ⟨x.m, x.e - (dyLog2 x - fmt.mb)⟩ = 2 ^ (fmt.mb + 1) then
          (dyLog2 x + 1, (2 ^ fmt.mb : Int)) else
          (dyLog2 x, dyRndHalfEven ⟨x.m, x.e - (dyLog2 x - fmt.mb)⟩)).1 := by
      split <;> simp only <;> omega
    rw [if_pos hcond]
  · have hlg : dyLog2 x = fmt.emax := by omega
    rw [hlg]
    set q : Int := 2 ^ (fmt.mb + 1) - 1 with hq
    have hqodd : q % 2 ≠ 0 := by
      rw [hq]
      have h2 : (2 : Int) ^ (fmt.mb + 1) % 2 = 0 := by
        rw [pow_succ]
        omega
      omega
    have hshift := Dy.toRat_shift x ((fmt.emax : Int) - fmt.mb)
    have hEinv : (2 : ℚ) ^ (-((fmt.emax : Int) - fmt.mb)) =
        ((2 : ℚ) ^ ((fmt.emax : Int) - fmt.mb))⁻¹ := zpow_neg 2 _
    have hqcast : ((q : Int) : ℚ) = 2 * (2 : ℚ) ^ fmt.mb - 1 := by
      rw [hq]
      push_cast
      rw [pow_succ]
      ring
    have hylow : ((q : Int) : ℚ) + 1 / 2 ≤ (⟨x.m, x.e - ((fmt.emax : Int) - fmt.mb)⟩ : Dy).toRat := by
      rw [hshift, hEinv, hqcast]
      have hstep : ((overflowBound fmt).toRat) * ((2 : ℚ) ^ ((fmt.emax : Int) - fmt.mb))⁻¹ ≤
          x.toRat * ((2 : ℚ) ^ ((fmt.emax : Int) - fmt.mb))⁻¹ :=
        mul_le_mul_of_nonneg_right h (le_of_lt (inv_pos.mpr hE))
      rw [overflowBound_toRat] at hstep
      rw [mul_inv_cancel_right₀ (ne_of_gt hE)] at hstep
      linarith
    have hyhi : (⟨x.m, x.e - ((fmt.emax : Int) - fmt.mb)⟩ : Dy).toRat < ((q : Int) : ℚ) + 1 := by
      rw [hshift, hEinv, hqcast]
      have hx2 : x.toRat < (2 : ℚ) ^ ((fmt.emax : Int) + 1) := by
        rw [← hlg]
        exact hhi
      have he1 : (2 : ℚ) ^ ((fmt.emax : Int) + 1) =
          (2 * (2 : ℚ) ^ fmt.mb) * (2 : ℚ) ^ ((fmt.emax : Int) - fmt.mb) := by
        rw [show ((fmt.emax : Int) + 1) = ((fmt.mb : Int) + 1) + ((fmt.emax : Int) - fmt.mb) from by
          ring, zpow_add₀ (by norm_num : (2 : ℚ) ≠ 0),
          show ((fmt.mb : Int) + 1) = (((fmt.mb + 1 : Nat)) : Int) from by omega, zpow_natCast,
          pow_succ]
        ring
      have hstep : x.toRat * ((2 : ℚ) ^ ((fmt.emax : Int) - fmt.mb))⁻¹ <
          (2 : ℚ) ^ ((fmt.emax : Int) + 1) * ((2 : ℚ) ^ ((fmt.emax : Int) - fmt.mb))⁻¹ :=
        mul_lt_mul_of_pos_right hx2 (inv_pos.mpr hE)
      rw [he1, mul_inv_cancel_right₀ (ne_of_gt hE)] at hstep
      linarith
    rw [dyRnd_eq_ceil _ q hqodd hylow hyhi]
    have hqn : q + 1 = 2 ^ (fmt.mb + 1) := by rw [hq]; ring
    rw [if_pos hqn]
    have hfin : fmt.emax < fmt.emax + 1 := by omega
    rw [if_pos hfin]

/-- A positive magnitude above the largest finite value but below the
overflow threshold rounds to the all-ones finite pattern. -/
theorem encodePos_margin (fmt : IEEEFmt) (x : Dy) (hm : 0 < x.m)
    (hbias : 1 ≤ fmt.bias)
    (h1 : (maxFinite fmt).toRat < x.toRat)
    (h2 : x.toRat < (overflowBound fmt).toRat) :
    encodePos fmt x =
      .ok ((fmt.emax + fmt.bias).toNat, ((2 : Int) ^ (fmt.mb + 1) - 1 - 2 ^ fmt.mb).toNat) := by
  obtain ⟨hlo, hhi⟩ := dyLog2_bounds x hm
  have hE : (0 : ℚ) < (2 : ℚ) ^ ((fmt.emax : Int) - fmt.mb) := two_zpow_pos _
  have hM : (1 : ℚ) ≤ (2 : ℚ) ^ fmt.mb := one_le_pow₀ (by norm_num)
  have hsplitpow : (2 : ℚ) ^ (fmt.emax : Int) =
      (2 : ℚ) ^ fmt.mb * (2 : ℚ) ^ ((fmt.emax : Int) - fmt.mb) := by
    rw [← zpow_natCast (2 : ℚ) fmt.mb, ← zpow_add₀ (by norm_num : (2 : ℚ) ≠ 0)]
    congr 1
    ring
  have hmax_ge : (2 : ℚ) ^ (fmt.emax : Int) ≤ (maxFinite fmt).toRat := by
    rw [maxFinite_toRat, hsplitpow]
    have : (2 : ℚ) ^ fmt.mb ≤ 2 * (2 : ℚ) ^ fmt.mb - 1 := by linarith
    exact mul_le_mul_of_nonneg_right this (le_of_lt hE)
  have hthr_le : (overflowBound fmt).toRat < (2 : ℚ) ^ ((fmt.emax : Int) + 1) := by
    rw [overflowBound_toRat,
      show ((fmt.emax : Int) + 1) = ((fmt.mb : Int) + 1) + ((fmt.emax : Int) - fmt.mb) from by
        ring, zpow_add₀ (by norm_num : (2 : ℚ) ≠ 0),
      show ((fmt.mb : Int) + 1) = (((fmt.mb + 1 : Nat)) : Int) from by omega, zpow_natCast,
      pow_succ]
    have : 2 * (2 : ℚ) ^ fmt.mb - 1 / 2 < (2 : ℚ) ^ fmt.mb * 2 := by linarith
    exact mul_lt_mul_of_pos_right this hE
  have hlg_ge : fmt.emax ≤ dyLog2 x := by
    have hc : (2 : ℚ) ^ (fmt.emax : Int) < (2 : ℚ) ^ (dyLog2 x + 1) :=
      lt_of_le_of_lt hmax_ge (lt_trans h1 hhi)
    have := (zpow_lt_zpow_iff_right₀ (by norm_num : (1 : ℚ) < 2)).mp hc
    omega
  have hlg_le : dyLog2 x ≤ fmt.emax := by
    have hc : (2 : ℚ) ^ (dyLog2 x) < (2 : ℚ) ^ ((fmt.emax : Int) + 1) :=
      lt_of_le_of_lt hlo (lt_trans h2 hthr_le)
    have := (zpow_lt_zpow_iff_right₀ (by norm_num : (1 : ℚ) < 2)).mp hc
    omega
  have hlg : dyLog2 x = fmt.emax := by omega
  have hemin : fmt.emin ≤ dyLog2 x := by
    unfold IEEEFmt.emin at *
    unfold IEEEFmt.emax at *
    omega
  have hemin2 : fmt.emin ≤ fmt.emax := by
    rw [← hlg]
    exact hemin
  have hmax2 : max fmt.emax fmt.emin = fmt.emax := max_eq_left hemin2
  simp only [encodePos, hlg, hmax2]
  set q : Int := 2 ^ (fmt.mb + 1) - 1 with hq
  have hshift := Dy.toRat_shift x ((fmt.emax : Int) - fmt.mb)
  have hEinv : (2 : ℚ) ^ (-((fmt.emax : Int) - fmt.mb)) =
      ((2 : ℚ) ^ ((fmt.emax : Int) - fmt.mb))⁻¹ := zpow_neg 2 _
  have hqcast : ((q : Int) : ℚ) = 2 * (2 : ℚ) ^ fmt.mb - 1 := by
    rw [hq]
    push_cast
    rw [pow_succ]
    ring
  have hylow : ((q : Int) : ℚ) ≤ (⟨x.m, x.e - ((fmt.emax : Int) - fmt.mb)⟩ : Dy).toRat := by
    rw [hshift, hEinv, hqcast]
    have hstep : ((maxFinite fmt).toRat) * ((2 : ℚ) ^ ((fmt.emax : Int) - fmt.mb))⁻¹ ≤
        x.toRat * ((2 : ℚ) ^ ((fmt.emax : Int) - fmt.mb))⁻¹ :=
      mul_le_mul_of_nonneg_right (le_of_lt h1) (le_of_lt (inv_pos.mpr hE))
    rw [maxFinite_toRat, mul_inv_cancel_right₀ (ne_of_gt hE)] at hstep
    linarith
  have hyhi : (⟨x.m, x.e - ((fmt.emax : Int) - fmt.mb)⟩ : Dy).toRat < ((q : Int) : ℚ) + 1 / 2 := by
    rw [hshift, hEinv, hqcast]
    have hstep : x.toRat * ((2 : ℚ) ^ ((fmt.emax : Int) - fmt.mb))⁻¹ <
        ((overflowBound fmt).toRat) * ((2 : ℚ) ^ ((fmt.emax : Int) - fmt.mb))⁻¹ :=
      mul_lt_mul_of_pos_right h2 (inv_pos.mpr hE)
    rw [overflowBound_toRat, mul_inv_cancel_right₀ (ne_of_gt hE)] at hstep
    linarith
  rw [dyRnd_eq_floor _ q hylow hyhi]
  have hqne : ¬(q = 2 ^ (fmt.mb + 1)) := by
    rw [hq]
    have : (0 : Int) < 2 ^ (fmt.mb + 1) := by positivity
    omega
  rw [if_neg hqne]
  have hnotlt : ¬(fmt.emax < fmt.emax) := by omega
  rw [if_neg hnotlt]
  have hqge : ¬(q < 2 ^ fmt.mb) := by
    rw [hq, pow_succ]
    have : (0 : Int) < 2 ^ fmt.mb := by positivity
    omega
  rw [if_neg hqge]

/-- Comparing a finite float against zero decides the sign of the dyadic
mantissa. -/
theorem pyGt_zero_val (x : Dy) : PyFloat.gt (.val x) pyZero = decide (0 < x.m) := by
  show Dy.blt ⟨0, 0⟩ x = decide (0 < x.m)
  unfold Dy.blt Dy.scaleTo
  simp only [zero_mul]
  rw [decide_eq_decide]
  have hp : (0 : Int) < 2 ^ ((x.e - min (0 : Int) x.e).toNat) := by positivity
  constructor
  · intro h
    rcases mul_pos_iff.mp h with ⟨h1, _⟩ | ⟨_, h2⟩
    · exact h1
    · omega
  · intro h
    exact mul_pos h hp

/-- `struct.pack` with the overflow catch, on a finite value at or above
the rounding overflow threshold: the packed bits are the infinity pattern
with the sign of the value. -/
theorem structPackCatch_overflow (fmt : IEEEFmt) (big : Bool) (x : Dy)
    (hbias : 1 ≤ fmt.bias)
    (hb : Dy.ble (overflowBound fmt) (dyAbs x) = true) :
    structPackCatch fmt big (.val x) =
      (if big then fieldsToBits fmt (decide (x.m < 0)) (2 ^ fmt.eb - 1) 0
       else byteSwap (fieldsToBits fmt (decide (x.m < 0)) (2 ^ fmt.eb - 1) 0)) := by
  have hthr : (overflowBound fmt).toRat ≤ (dyAbs x).toRat := (Dy.ble_iff _ _).mp hb
  have hM : (1 : ℚ) ≤ (2 : ℚ) ^ fmt.mb := one_le_pow₀ (by norm_num)
  have hE := two_zpow_pos ((fmt.emax : Int) - fmt.mb)
  have hthr_pos : (0 : ℚ) < (overflowBound fmt).toRat := by
    rw [overflowBound_toRat]
    have : (0 : ℚ) < 2 * (2 : ℚ) ^ fmt.mb - 1 / 2 := by linarith
    exact mul_pos this hE
  have hmne : x.m ≠ 0 := by
    intro h0
    have hz : (dyAbs x).toRat = 0 := by
      unfold dyAbs Dy.toRat
      rw [h0]
      simp
    rw [hz] at hthr
    linarith
  have habs : 0 < (dyAbs x).m := abs_pos.mpr hmne
  have henc : encodePos fmt (dyAbs x) = .error () :=
    encodePos_overflow fmt (dyAbs x) habs hbias hthr
  have hpack : structPack fmt big (.val x) = .error .overflowError := by
    unfold structPack
    simp only [packBE, if_neg hmne, henc]
    rfl
  unfold structPackCatch
  rw [hpack, pyGt_zero_val x]
  by_cases hs : 0 < x.m
  · rw [if_pos (by simp [hs] : decide (0 < x.m) = true)]
    have hsign : decide (x.m < 0) = false := by simp; omega
    rw [hsign]
    rfl
  · rw [if_neg (by simp [hs] : ¬(decide (0 < x.m) = true))]
    have hsign : decide (x.m < 0) = true := by simp; omega
    rw [hsign]
    rfl

/-- The exponent field of the largest finite value is all ones but one:
`(emax + bias).toNat = 2^eb - 2`. -/
theorem emax_add_bias_toNat (fmt : IEEEFmt) (heb : 1 ≤ fmt.eb) :
    (fmt.emax + fmt.bias).toNat = 2 ^ fmt.eb - 2 := by
  unfold IEEEFmt.emax IEEEFmt.bias
  have h3 : ((2 ^ (fmt.eb - 1) : Nat) : Int) = (2 : Int) ^ (fmt.eb - 1) := by
    push_cast
    rfl
  have h4 : (2 : Nat) ^ fmt.eb = 2 * 2 ^ (fmt.eb - 1) := by
    conv_lhs => rw [show fmt.eb = (fmt.eb - 1) + 1 from by omega]
    rw [pow_succ]
    ring
  have h5 : (1 : Nat) ≤ 2 ^ (fmt.eb - 1) := Nat.one_le_two_pow
  omega

/-- The mantissa field of the largest finite value is all ones:
`(2^(mb+1) - 1 - 2^mb).toNat = 2^mb - 1`. -/
theorem maxFinite_mant_toNat (fmt : IEEEFmt) :
    ((2 : Int) ^ (fmt.mb + 1) - 1 - 2 ^ fmt.mb).toNat = 2 ^ fmt.mb - 1 := by
  have h1 : (1 : Int) ≤ 2 ^ fmt.mb := one_le_pow₀ (by norm_num)
  have h2 : (2 : Int) ^ (fmt.mb + 1) = 2 * 2 ^ fmt.mb := by ring
  have h3 : ((2 ^ fmt.mb : Nat) : Int) = (2 : Int) ^ fmt.mb := by
    push_cast
    rfl
  omega

/-- `struct.pack` with the overflow catch, on a finite value above the
largest finite magnitude but below the overflow threshold: the packed bits
are the maximum-finite pattern (not an infinity) with the sign of the
value. -/
theorem structPackCatch_margin (fmt : IEEEFmt) (big : Bool) (x : Dy)
    (hbias : 1 ≤ fmt.bias) (heb : 1 ≤ fmt.eb)
    (h1 : Dy.blt (maxFinite fmt) (dyAbs x) = true)
    (h2 : Dy.blt (dyAbs x) (overflowBound fmt) = true) :
    structPackCatch fmt big (.val x) =
      (if big then fieldsToBits fmt (decide (x.m < 0)) (2 ^ fmt.eb - 2) (2 ^ fmt.mb - 1)
       else byteSwap (fieldsToBits fmt (decide (x.m < 0)) (2 ^ fmt.eb - 2) (2 ^ fmt.mb - 1))) := by
  have hlt1 : (maxFinite fmt).toRat < (dyAbs x).toRat := (Dy.blt_iff _ _).mp h1
  have hlt2 : (dyAbs x).toRat < (overflowBound fmt).toRat := (Dy.blt_iff _ _).mp h2
  have hM : (1 : ℚ) ≤ (2 : ℚ) ^ fmt.mb := one_le_pow₀ (by norm_num)
  have hE := two_zpow_pos ((fmt.emax : Int) - fmt.mb)
  have hmax_pos : (0 : ℚ) < (maxFinite fmt).toRat := by
    rw [maxFinite_toRat]
    have : (0 : ℚ) < 2 * (2 : ℚ) ^ fmt.mb - 1 := by linarith
    exact mul_pos this hE
  have hmne : x.m ≠ 0 := by
    intro h0
    have hz : (dyAbs x).toRat = 0 := by
      unfold dyAbs Dy.toRat
      rw [h0]
      simp
    rw [hz] at hlt1
    linarith
  have habs : 0 < (dyAbs x).m := abs_pos.mpr hmne
  have henc := encodePos_margin fmt (dyAbs x) habs hbias hlt1 hlt2
  have hpack : structPack fmt big (.val x) =
      .ok (if big
        then fieldsToBits fmt (decide (x.m < 0)) (2 ^ fmt.eb - 2) (2 ^ fmt.mb - 1)
        else byteSwap (fieldsToBits fmt (decide (x.m < 0)) (2 ^ fmt.eb - 2) (2 ^ fmt.mb - 1))) := by
    unfold structPack
    simp only [packBE, if_neg hmne, henc, Except.map]
    rw [emax_add_bias_toNat fmt heb, maxFinite_mant_toNat fmt]
  unfold structPackCatch
  rw [hpack]

/-- C7 (amended).  For every finite float and every requested width (16,
32 or 64 bits, either endianness): when the magnitude rounds (to nearest,
ties to even, at the pack width) beyond the largest finite value — that
is, reaches `overflowBound` — encoding does not raise and returns the bit
pattern of the infinity whose sign matches the value; a magnitude that
merely exceeds the largest representable value `maxFinite` but stays
below `overflowBound` yields the maximum-finite pattern instead of an
infinity.  For bfloat the pack width is 32 bits, and overflow at that
width yields the 16-bit bfloat infinity pattern of matching sign. -/
theorem c7_float_overflow_saturates_to_infinity (x : Dy) (w : FW) (big : Bool) :
    (Dy.ble (overflowBound w.fmt) (dyAbs x) = true →
      float2bitstore (.val x) w big =
        BitStore.ofBitarray (if big
          then fieldsToBits w.fmt (decide (x.m < 0)) (2 ^ w.fmt.eb - 1) 0
          else byteSwap (fieldsToBits w.fmt (decide (x.m < 0)) (2 ^ w.fmt.eb - 1) 0))) ∧
    (Dy.blt (maxFinite w.fmt) (dyAbs x) = true →
     Dy.blt (dyAbs x) (overflowBound w.fmt) = true →
      float2bitstore (.val x) w big =
        BitStore.ofBitarray (if big
          then fieldsToBits w.fmt (decide (x.m < 0)) (2 ^ w.fmt.eb - 2) (2 ^ w.fmt.mb - 1)
          else byteSwap
            (fieldsToBits w.fmt (decide (x.m < 0)) (2 ^ w.fmt.eb - 2) (2 ^ w.fmt.mb - 1)))) ∧
    (Dy.ble (overflowBound fp32) (dyAbs x) = true →
      bfloat2bitstore (.val x) big =
        BitStore.ofBitarray (if big
          then (fieldsToBits fp32 (decide (x.m < 0)) (2 ^ fp32.eb - 1) 0).take 16
          else ((byteSwap (fieldsToBits fp32 (decide (x.m < 0)) (2 ^ fp32.eb - 1) 0)).drop 16).take
            16)) := by
  have hbias : 1 ≤ w.fmt.bias := by cases w <;> decide
  have heb : 1 ≤ w.fmt.eb := by cases w <;> decide
  refine ⟨fun hb => ?_, fun h1 h2 => ?_, fun hb => ?_⟩
  · unfold float2bitstore
    rw [structPackCatch_overflow w.fmt big x hbias hb]
  · unfold float2bitstore
    rw [structPackCatch_margin w.fmt big x hbias heb h1 h2]
  · unfold bfloat2bitstore
    rw [structPackCatch_overflow fp32 big x (by decide) hb]
    cases big <;> rfl

/-- C7 witness: the amended theorem at the concrete inputs 70000 (beyond
the 16-bit overflow threshold 65520), 65505 (above the largest finite
16-bit value 65504 but inside the rounding margin), and `2^128` at bfloat
(beyond the 32-bit overflow threshold), hypotheses discharged by kernel
computation. -/
theorem c7_float_overflow_saturates_to_infinity_witness :
    (float2bitstore (.val ⟨70000, 0⟩) .w16 true =
      BitStore.ofBitarray (if true
        then fieldsToBits FW.w16.fmt (decide ((70000 : Int) < 0)) (2 ^ FW.w16.fmt.eb - 1) 0
        else byteSwap
          (fieldsToBits FW.w16.fmt (decide ((70000 : Int) < 0)) (2 ^ FW.w16.fmt.eb - 1) 0))) ∧
    (float2bitstore (.val ⟨65505, 0⟩) .w16 true =
      BitStore.ofBitarray (if true
        then fieldsToBits FW.w16.fmt (decide ((65505 : Int) < 0)) (2 ^ FW.w16.fmt.eb - 2)
          (2 ^ FW.w16.fmt.mb - 1)
        else byteSwap (fieldsToBits FW.w16.fmt (decide ((65505 : Int) < 0)) (2 ^ FW.w16.fmt.eb - 2)
          (2 ^ FW.w16.fmt.mb - 1)))) ∧
    bfloat2bitstore (.val ⟨1, 128⟩) false =
      BitStore.ofBitarray (if false
        then (fieldsToBits fp32 (decide ((1 : Int) < 0)) (2 ^ fp32.eb - 1) 0).take 16
        else ((byteSwap (fieldsToBits fp32 (decide ((1 : Int) < 0)) (2 ^ fp32.eb - 1) 0)).drop
          16).take 16) :=
  ⟨(c7_float_overflow_saturates_to_infinity ⟨70000, 0⟩ .w16 true).1 (by decide),
   (c7_float_overflow_saturates_to_infinity ⟨65505, 0⟩ .w16 true).2.1 (by decide) (by decide),
   (c7_float_overflow_saturates_to_infinity ⟨1, 128⟩ .w64 false).2.2 (by decide)⟩

/-- C7 counterexample.  The claim says every finite float whose magnitude
exceeds the largest value representable at the requested width encodes to
the matching-sign infinity pattern.  At width 16, 65505 exceeds the
largest representable value 65504 (`maxFinite fp16`, mantissa
`2^11 - 1 = 2047` at exponent 5), yet it encodes to the maximum-finite
pattern `0 11110 1111111111`, which differs from the infinity pattern
`0 11111 0000000000`. -/
theorem c7_within_margin_encodes_finite_counterexample :
    maxFinite fp16 = ⟨2047, 5⟩ ∧
    Dy.blt (maxFinite fp16) (dyAbs ⟨65505, 0⟩) = true ∧
    float2bitstore (.val ⟨65505, 0⟩) .w16 true =
      BitStore.ofBitarray
        [false, true, true, true, true, false,
         true, true, true, true, true, true, true, true, true, true] ∧
    float2bitstore (.val ⟨65505, 0⟩) .w16 true ≠
      BitStore.ofBitarray (fieldsToBits fp16 false (2 ^ fp16.eb - 1) 0) := by
  refine ⟨rfl, by decide, by decide, by decide⟩

/-- Indices selected by a positive-step normalized slice lie in
`[start, stop)`. -/
theorem sliceIdx_subset_pos (a b c i : Int) (hc : 0 < c) (h : i ∈ sliceIdx a b c) :
    a ≤ i ∧ i < b := by
  rw [sliceIdx, List.mem_map] at h
  obtain ⟨k0, hk0, rfl⟩ := h
  simp at hk0
  obtain ⟨k, hk, rfl⟩ := hk0
  unfold sliceCount at hk
  rw [if_pos hc] at hk
  have hkc : (0 : Int) ≤ (k : Int) * c := mul_nonneg (Int.natCast_nonneg k) (le_of_lt hc)
  refine ⟨by linarith, ?_⟩
  by_cases hab : a < b
  · rw [if_pos hab] at hk
    have hD0 : 0 ≤ (b - a - 1) / c := Int.ediv_nonneg (by omega) (le_of_lt hc)
    have h5 : ((k : Nat) : Int) < ((((b - a - 1) / c + 1).toNat : Nat) : Int) := by
      exact_mod_cast hk
    have h6 : ((((b - a - 1) / c + 1).toNat : Nat) : Int) = (b - a - 1) / c + 1 :=
      Int.toNat_of_nonneg (by linarith)
    rw [h6] at h5
    have h1 : (k : Int) ≤ (b - a - 1) / c := Int.lt_add_one_iff.mp h5
    have h3 : (k : Int) * c ≤ b - a - 1 := (Int.le_ediv_iff_mul_le hc).mp h1
    linarith
  · rw [if_neg hab] at hk
    exact absurd hk (by simp)

/-- Indices selected by a negative-step normalized slice lie in
`(stop, start]`. -/
theorem sliceIdx_subset_neg (a b c i : Int) (hc : c < 0) (h : i ∈ sliceIdx a b c) :
    b < i ∧ i ≤ a := by
  rw [sliceIdx, List.mem_map] at h
  obtain ⟨k0, hk0, rfl⟩ := h
  simp at hk0
  obtain ⟨k, hk, rfl⟩ := hk0
  unfold sliceCount at hk
  rw [if_neg (by omega : ¬(0 < c))] at hk
  have hkc : (k : Int) * c ≤ 0 :=
    mul_nonpos_of_nonneg_of_nonpos (Int.natCast_nonneg k) (le_of_lt hc)
  refine ⟨?_, by linarith⟩
  by_cases hab : b < a
  · rw [if_pos hab] at hk
    have hcpos : (0 : Int) < -c := by omega
    have hD0 : 0 ≤ (a - b - 1) / (-c) := Int.ediv_nonneg (by omega) (le_of_lt hcpos)
    have h5 : ((k : Nat) : Int) < ((((a - b - 1) / (-c) + 1).toNat : Nat) : Int) := by
      exact_mod_cast hk
    have h6 : ((((a - b - 1) / (-c) + 1).toNat : Nat) : Int) = (a - b - 1) / (-c) + 1 :=
      Int.toNat_of_nonneg (by linarith)
    rw [h6] at h5
    have h1 : (k : Int) ≤ (a - b - 1) / (-c) := Int.lt_add_one_iff.mp h5
    have h3 : (k : Int) * (-c) ≤ a - b - 1 := (Int.le_ediv_iff_mul_le hcpos).mp h1
    have h4 : -((k : Int) * c) ≤ a - b - 1 := by
      have he : (k : Int) * (-c) = -((k : Int) * c) := by ring
      linarith [he ▸ h3]
    linarith
  · rw [if_neg hab] at hk
    exact absurd hk (by simp)

/-- Normalization of an all-concrete positive-step slice whose bounds are
already in `[0, n]` changes nothing. -/
theorem indices_concrete_pos (a b c : Int) (n : Nat) (hc : 0 < c)
    (ha0 : 0 ≤ a) (han : a ≤ n) (hb0 : 0 ≤ b) (hbn : b ≤ n) :
    (⟨some a, some b, some c⟩ : PySlice).indices n = .ok (a, b, c) := by
  simp only [PySlice.indices, Option.getD_some]
  rw [if_neg (show ¬(c = 0) from by omega)]
  simp only [if_neg (show ¬(c < 0) from by omega),
    if_neg (show ¬(a < 0) from by omega), if_neg (show ¬(b < 0) from by omega),
    min_eq_left han, min_eq_left hbn]

/-- Normalization of an all-concrete negative-step slice with a start in
`[0, n-1]` and a stop in `[-1, n-1]` keeps the start; a negative stop is
shifted by the length. -/
theorem indices_concrete_negstep (a b c : Int) (n : Nat) (hc : c < 0)
    (ha0 : 0 ≤ a) (han : a ≤ (n : Int) - 1) (hb0 : -1 ≤ b) (hbn : b ≤ (n : Int) - 1) :
    (⟨some a, some b, some c⟩ : PySlice).indices n =
      .ok (a, if b < 0 then max (b + n) (-1) else b, c) := by
  simp only [PySlice.indices, Option.getD_some]
  rw [if_neg (show ¬(c = 0) from by omega)]
  simp only [if_pos hc, if_neg (show ¬(a < 0) from by omega), min_eq_left han]
  by_cases hbneg : b < 0
  · simp only [if_pos hbneg]
  · simp only [if_neg hbneg, min_eq_left hbn]

/-- Reading below the truncation point is reading the original list. -/
theorem getD_take_of_lt (l : List Bool) (L k : Nat) (h : k < L) :
    (l.take L).getD k false = l.getD k false := by
  rw [List.getD_eq_getElem?_getD, List.getD_eq_getElem?_getD, List.getElem?_take_of_lt h]

/-- Slicing with a concrete normalized slice whose selected indices all lie
below `L` gives the same bits on the list and on its `L`-prefix. -/
theorem pyGetSlice_take (l : List Bool) (L : Nat) (hL : L ≤ l.length)
    (a b c : Int)
    (hpos : 0 < c → 0 ≤ a ∧ a ≤ L ∧ 0 ≤ b ∧ b ≤ L)
    (hneg : c < 0 → 0 ≤ a ∧ a ≤ (L : Int) - 1 ∧ -1 ≤ b ∧ b ≤ (L : Int) - 1)
    (hc : c ≠ 0) :
    pyGetSlice l ⟨some a, some b, some c⟩ =
      pyGetSlice (l.take L) ⟨some a, some b, some c⟩ := by
  have htl : (l.take L).length = L := by
    rw [List.length_take]
    omega
  unfold pyGetSlice
  rw [htl]
  by_cases hcpos : 0 < c
  · obtain ⟨ha0, haL, hb0, hbL⟩ := hpos hcpos
    have hLP : ((L : Int)) ≤ (l.length : Int) := by exact_mod_cast hL
    rw [indices_concrete_pos a b c l.length hcpos ha0 (by omega) hb0 (by omega),
      indices_concrete_pos a b c L hcpos ha0 haL hb0 hbL]
    simp only [Except.map]
    congr 1
    apply List.map_congr_left
    intro i hi
    obtain ⟨hia, hib⟩ := sliceIdx_subset_pos a b c i hcpos hi
    exact (getD_take_of_lt l L i.toNat (by omega)).symm
  · have hcneg : c < 0 := by omega
    obtain ⟨ha0, haL, hb0, hbL⟩ := hneg hcneg
    have hLP : ((L : Int)) ≤ (l.length : Int) := by exact_mod_cast hL
    rw [indices_concrete_negstep a b c l.length hcneg ha0 (by omega) hb0 (by omega),
      indices_concrete_negstep a b c L hcneg ha0 haL hb0 hbL]
    by_cases hbneg : b < 0
    · simp only [if_pos hbneg, Except.map]
      have hbm1 : b = -1 := by omega
      have e1 : sliceIdx a (max (b + (l.length : Int)) (-1)) c = [] := by
        rw [max_eq_left (by omega)]
        unfold sliceIdx sliceCount
        rw [if_neg (by omega : ¬(0 < c)), if_neg (by omega : ¬((b + (l.length : Int)) < a))]
        rfl
      have e2 : sliceIdx a (max (b + (L : Int)) (-1)) c = [] := by
        rw [max_eq_left (by omega)]
        unfold sliceIdx sliceCount
        rw [if_neg (by omega : ¬(0 < c)), if_neg (by omega : ¬((b + (L : Int)) < a))]
        rfl
      rw [e1, e2]
      rfl
    · simp only [if_neg hbneg, Except.map]
      congr 1
      apply List.map_congr_left
      intro i hi
      obtain ⟨hib, hia⟩ := sliceIdx_subset_neg a b c i hcneg hi
      exact (getD_take_of_lt l L i.toNat (by omega)).symm

/-- An `ok` result of a bind factors through an `ok` intermediate value. -/
theorem except_bind_ok {ε α β : Type} (x : Except ε α) (f : α → Except ε β) (b : β)
    (h : (x >>= f) = .ok b) : ∃ a, x = .ok a ∧ f a = .ok b := by
  cases x with
  | error e => simp [Bind.bind, Except.bind] at h
  | ok a => exact ⟨a, rfl, h⟩

/-- The triple produced by `slice.indices(n)` has a nonzero step and is
clamped to `[0, n]` for a positive step, to `[-1, n-1]` for a negative
step. -/
theorem PySlice.indices_bounds (key : PySlice) (n : Nat) (a b c : Int)
    (h : key.indices n = .ok (a, b, c)) :
    c ≠ 0 ∧
    (0 < c → 0 ≤ a ∧ a ≤ n ∧ 0 ≤ b ∧ b ≤ n) ∧
    (c < 0 → -1 ≤ a ∧ a ≤ (n : Int) - 1 ∧ -1 ≤ b ∧ b ≤ (n : Int) - 1) := by
  obtain ⟨os, op, oc⟩ := key
  rcases os with _ | st <;> rcases op with _ | sp <;>
    unfold PySlice.indices at h <;>
    by_cases hstep : oc.getD 1 = 0
  all_goals first
  | (rw [if_pos hstep] at h; exact absurd h (by simp))
  | (rw [if_neg hstep] at h
     simp only [Except.ok.injEq, Prod.mk.injEq] at h
     obtain ⟨ha, hb, hc⟩ := h
     subst hc
     refine ⟨hstep, fun hcs => ?_, fun hcs => ?_⟩ <;>
       split_ifs at ha hb <;> omega)

/-- C10.  Every store returned by `getslice_msb0` or `getslice_lsb0` is a
fresh default store: `immutable` and `modified` are false and no length
restriction is kept, whatever the source store's flags.  And on a restricted
view (`modified` true, logical length at most the backing length),
`getslice_msb0` first normalizes the key against the logical length; whenever
the normalized start is nonnegative, the result equals the same concrete
slice taken of the logical-length prefix of the backing bits, so it contains
no backing bit beyond the logical length.  (The nonnegative-start proviso is
necessary: a negative-step slice can normalize its start to `-1`, which the
physical re-slicing reinterprets from the backing array's end — see the
counterexample.) -/
theorem c10_getslice_fresh_and_bounded :
    (∀ (s : BitStore) (key : PySlice) (r : BitStore),
      s.getslice_msb0 key = .ok r →
        r.immutable = false ∧ r.modified = false ∧ r.length = none) ∧
    (∀ (s : BitStore) (key : PySlice) (r : BitStore),
      s.getslice_lsb0 key = .ok r →
        r.immutable = false ∧ r.modified = false ∧ r.length = none) ∧
    (∀ (s : BitStore) (key : PySlice) (a b c : Int),
      s.modified = true →
      s.len ≤ s.bitarray.length →
      key.indices s.len = .ok (a, b, c) →
      0 ≤ a →
      s.getslice_msb0 key =
        (pyGetSlice (s.bitarray.take s.len) ⟨some a, some b, some c⟩).map
          BitStore.ofBitarray) := by
  refine ⟨?_, ?_, ?_⟩
  · intro s key r h
    unfold BitStore.getslice_msb0 at h
    split at h <;>
    · obtain ⟨k1, hk1, h⟩ := except_bind_ok _ _ _ h
      obtain ⟨bits, hbits, h⟩ := except_bind_ok _ _ _ h
      obtain rfl := Except.ok.inj h
      exact ⟨rfl, rfl, rfl⟩
  · intro s key r h
    unfold BitStore.getslice_lsb0 at h
    obtain ⟨k1, hk1, h⟩ := except_bind_ok _ _ _ h
    obtain ⟨bits, hbits, h⟩ := except_bind_ok _ _ _ h
    obtain rfl := Except.ok.inj h
    exact ⟨rfl, rfl, rfl⟩
  · intro s key a b c hmod hlen hidx ha0
    obtain ⟨hc, hpos, hneg⟩ := PySlice.indices_bounds key s.len a b c hidx
    unfold BitStore.getslice_msb0
    rw [hmod]
    simp only [if_true, hidx, Except.map]
    rw [show ((Except.ok (⟨some a, some b, some c⟩ : PySlice) :
        Except Err PySlice) >>= fun key =>
        pyGetSlice s.bitarray key >>= fun bits =>
          pure (BitStore.ofBitarray bits)) =
      (pyGetSlice s.bitarray ⟨some a, some b, some c⟩ >>= fun bits =>
          (pure (BitStore.ofBitarray bits) : Except Err BitStore)) from rfl]
    rw [except_bind_pure]
    rw [pyGetSlice_take s.bitarray s.len hlen a b c hpos
      (fun hcn => ⟨ha0, (hneg hcn).2.1, (hneg hcn).2.2.1, (hneg hcn).2.2.2⟩) hc]
    cases pyGetSlice (s.bitarray.take s.len) ⟨some a, some b, some c⟩ <;> rfl

/-- C10 witness: on the view of logical length 2 over `[1, 0, 1, 1]`,
slicing `[0:2]` gives a fresh default store holding `[1, 0]`, the same bits
the slice selects from the 2-bit logical prefix; and `getslice_lsb0` on a
plain 2-bit store also returns a fresh default store. -/
theorem c10_getslice_fresh_and_bounded_witness :
    ((⟨[true, false, true, true], true, true, some 2, []⟩ : BitStore).getslice_msb0
        ⟨some 0, some 2, none⟩ = .ok (BitStore.ofBitarray [true, false])) ∧
    ((BitStore.ofBitarray [true, false]).getslice_lsb0 ⟨none, none, none⟩ =
      .ok (BitStore.ofBitarray [true, false])) ∧
    (BitStore.ofBitarray [true, false]).immutable = false ∧
    (BitStore.ofBitarray [true, false]).modified = false ∧
    (BitStore.ofBitarray [true, false]).length = none ∧
    ((⟨[true, false, true, true], true, true, some 2, []⟩ : BitStore).getslice_msb0
        ⟨some 0, some 2, none⟩ =
      (pyGetSlice ([true, false, true, true].take 2) ⟨some 0, some 2, some 1⟩).map
        BitStore.ofBitarray) := by
  obtain ⟨h1, h2, h3⟩ := c10_getslice_fresh_and_bounded
  have hok1 : (⟨[true, false, true, true], true, true, some 2, []⟩ : BitStore).getslice_msb0
      ⟨some 0, some 2, none⟩ = .ok (BitStore.ofBitarray [true, false]) := by decide
  have hok2 : (BitStore.ofBitarray [true, false]).getslice_lsb0 ⟨none, none, none⟩ =
      .ok (BitStore.ofBitarray [true, false]) := by decide
  have hfresh := h1 _ _ _ hok1
  have hfresh2 := h2 _ _ _ hok2
  have hup := h3 ⟨[true, false, true, true], true, true, some 2, []⟩
    ⟨some 0, some 2, none⟩ 0 2 1 rfl (by decide) (by decide) (by decide)
  exact ⟨hok1, hok2, hfresh.1, hfresh.2.1, hfresh.2.2, hup⟩

/-- C10 counterexample: on a restricted view of logical length 3 over 8
backing bits whose first three bits are all false, `getslice_msb0` with the
slice `[-10:1:-1]` returns six bits, five of them true: the result is built
from backing bits beyond the view's logical length, refuting the claim that
normalization against the logical length keeps such bits out. -/
theorem c10_view_slice_leaks_counterexample :
    (BitStore.getslice_msb0
        ⟨[false, false, false, true, true, true, true, true], true, true, some 3, []⟩
        ⟨some (-10), some 1, some (-1)⟩ =
      .ok (BitStore.ofBitarray [true, true, true, true, true, false])) ∧
    (⟨[false, false, false, true, true, true, true, true], true, true,
        some 3, []⟩ : BitStore).len = 3 ∧
    List.take 3 [false, false, false, true, true, true, true, true] =
      [false, false, false] := by
  refine ⟨by decide, rfl, rfl⟩
